import Mathlib

/-!
Itty, a BIT interpreter: shallow embedding of `itty.cpp`.

Conventions of the embedding.

* A character stream is a `List Char`; each `Char` stands for one byte of the stream.
  `std::isspace` and `std::isupper` are those of the "C" locale (the program never
  calls `setlocale`).
* `size_t` is 64 bits wide and its arithmetic is taken modulo `2 ^ 64`: the shift
  and xor of `read_literal`, the `index + 1` passed to `resize` in `parse`,
  `get_address` and `execute`, and the `+ 1` of THE VALUE BEYOND.  A number held in
  a `size_t` is a `Nat`; the program only ever holds numbers below `2 ^ 64`.
* A `std::vector` is a `List`.  A read or a store `v[i]` with `i` out of range is
  undefined behaviour.  The host is taken to grant every allocation: `resize` never
  throws `std::bad_alloc` or `std::length_error`, so a statement about a table of
  `n` entries is a statement about a host with room for it.
* A thrown C++ exception is an `Except.error`.  Besides the six exception classes of
  the program there are `bad_variant_access` (thrown by `std::get` on the wrong
  alternative) and `undefined_behaviour` (an out-of-range `operator[]`).
* The token vector is reversed once by `parse` and then consumed from the back;
  here the list is kept in program order and consumed from the head.
* The globals `memory`, `variables`, `jump_register` and the two standard streams
  are the fields of `machine`, passed explicitly.
* Recursion that is not structural (`read_expression`, `read_gotos`, the loop of
  `parse`, the loop of `execute`) takes a fuel argument.  For the parser the fuel
  is derived from the length of the token list and is proved sufficient.
-/

namespace Itty

/-! ## Tokens -/

inductive token
  | ZERO
  | ONE
  | LINENUMBER
  | CODE
  | GOTO
  | IFTHEJUMPREGISTERIS
  | THEJUMPREGISTER
  | VARIABLE
  | THEVALUEAT
  | THEVALUEBEYOND
  | THEADDRESSOF
  | NAND
  | EQUALS
  | OPENPARENTHESIS
  | CLOSEPARENTHESIS
  | PRINT
  | READ
deriving DecidableEq, Repr

def token_strings : List String :=
  [ "ZERO",
    "ONE",
    "LINENUMBER",
    "CODE",
    "GOTO",
    "IFTHEJUMPREGISTERIS",
    "THEJUMPREGISTER",
    "VARIABLE",
    "THEVALUEAT",
    "THEVALUEBEYOND",
    "THEADDRESSOF",
    "NAND",
    "EQUALS",
    "OPENPARENTHESIS",
    "CLOSEPARENTHESIS",
    "PRINT",
    "READ" ]

/-- The cast `(size_t) tok`: position of the enumerator in `enum class token`. -/
def token.to_size_t : token → Nat
  | .ZERO => 0
  | .ONE => 1
  | .LINENUMBER => 2
  | .CODE => 3
  | .GOTO => 4
  | .IFTHEJUMPREGISTERIS => 5
  | .THEJUMPREGISTER => 6
  | .VARIABLE => 7
  | .THEVALUEAT => 8
  | .THEVALUEBEYOND => 9
  | .THEADDRESSOF => 10
  | .NAND => 11
  | .EQUALS => 12
  | .OPENPARENTHESIS => 13
  | .CLOSEPARENTHESIS => 14
  | .PRINT => 15
  | .READ => 16

/-- The cast `(token) n` applied to the distance returned by `std::find`; `n` is
always below 17 there. -/
def token.of_size_t : Nat → token
  | 0 => .ZERO
  | 1 => .ONE
  | 2 => .LINENUMBER
  | 3 => .CODE
  | 4 => .GOTO
  | 5 => .IFTHEJUMPREGISTERIS
  | 6 => .THEJUMPREGISTER
  | 7 => .VARIABLE
  | 8 => .THEVALUEAT
  | 9 => .THEVALUEBEYOND
  | 10 => .THEADDRESSOF
  | 11 => .NAND
  | 12 => .EQUALS
  | 13 => .OPENPARENTHESIS
  | 14 => .CLOSEPARENTHESIS
  | 15 => .PRINT
  | _ => .READ

/-- The expression `token_strings[(size_t) tok]`. -/
def token_string (tok : token) : String :=
  token_strings.getD tok.to_size_t ""

/-! ## Exceptions -/

inductive error
  | invalid_character_exception (ch : Char)
  | invalid_token_exception (tok : String)
  | unexpected_token_exception (tok : String) (area : String)
  | unexpected_end_of_program_exception (area : String)
  | duplicate_goto_exception (linenum : Nat)
  | invalid_operation_exception (msg : String)
  | bad_variant_access
  | undefined_behaviour
  | out_of_fuel
deriving DecidableEq, Repr

deriving instance DecidableEq for Except

/-! ## The tokenizer -/

/-- The function `std::isspace` in the "C" locale: space, `\t`, `\n`, `\v`, `\f`, `\r`. -/
def isspace (ch : Char) : Bool :=
  ch.toNat == 32 || (9 ≤ ch.toNat && ch.toNat ≤ 13)

/-- The function `std::isupper` in the "C" locale: `A` to `Z`. -/
def isupper (ch : Char) : Bool :=
  65 ≤ ch.toNat && ch.toNat ≤ 90

/-- The call `std::find(token_strings.begin(), token_strings.end(), tok)` followed by
the cast of the distance to `token`; `none` when the iterator is `end()`. -/
def find_token (tok : String) : Option token :=
  (token_strings.indexOf? tok).map token.of_size_t

/-- The `while` loop of `lex`, lines 231-244: the remaining stream, the tokens emitted
so far and the candidate word; returns both when the stream is exhausted. -/
def lex_loop : List Char → List token → String → Except error (List token × String)
  | [], ret, tok => .ok (ret, tok)
  | ch :: fobj, ret, tok =>
    if isspace ch then
      lex_loop fobj ret tok
    else if !isupper ch then
      .error (.invalid_character_exception ch)
    else
      match find_token (tok.push ch) with
      | some t => lex_loop fobj (ret ++ [t]) ""
      | none => lex_loop fobj ret (tok.push ch)

/-- The function `lex`, lines 225-252. -/
def lex (fobj : List Char) : Except error (List token) :=
  match lex_loop fobj [] "" with
  | .error e => .error e
  | .ok (ret, tok) =>
    if tok = "" then
      .ok ret
    else
      match find_token tok with
      | none => .error (.invalid_token_exception tok)
      | some t => .ok (ret ++ [t])

/-! ## Data model -/

/-- The width of `size_t`: its values are the naturals below `2 ^ 64`. -/
def size_t_mod : Nat := 2 ^ 64

inductive expression_type
  | THE_JUMP_REGISTER
  | VARIABLE
  | THE_VALUE_AT
  | THE_VALUE_BEYOND
  | THE_ADDRESS_OF
  | NAND
deriving DecidableEq, Repr

/-- The cast `(size_t) expr->type`. -/
def expression_type.to_size_t : expression_type → Nat
  | .THE_JUMP_REGISTER => 0
  | .VARIABLE => 1
  | .THE_VALUE_AT => 2
  | .THE_VALUE_BEYOND => 3
  | .THE_ADDRESS_OF => 4
  | .NAND => 5

mutual
/-- The struct `expression`: a type tag and the two variants `lvalue`, `rvalue`. -/
inductive expression : Type
  | mk (type : expression_type) (lvalue rvalue : expr_variant)
/-- The type `std::variant<std::monostate, size_t, std::shared_ptr<expression>>`. -/
inductive expr_variant : Type
  | monostate
  | size_t (n : Nat)
  | ptr (e : expression)
end

deriving instance DecidableEq for expression, expr_variant

def expression.type : expression → expression_type
  | .mk type _ _ => type

def expression.lvalue : expression → expr_variant
  | .mk _ lvalue _ => lvalue

def expression.rvalue : expression → expr_variant
  | .mk _ _ rvalue => rvalue

structure equals_command where
  var : expression
  val : expr_variant
deriving DecidableEq

structure goto_def where
  enabled : Bool := false
  destination : Nat := 0
deriving DecidableEq, Repr

/-- The member `line::command`, a `std::variant<std::monostate, bool, equals_command>`:
`monostate` for read commands, a `bool` for print commands, an `equals_command` for
equals commands. -/
inductive command_variant
  | monostate
  | bool (b : Bool)
  | equals_command (eq : equals_command)
deriving DecidableEq

structure line where
  enabled : Bool := false
  line_number : Nat := 0
  command : command_variant := .monostate
  goto_unconditional : goto_def := {}
  goto_true : goto_def := {}
  goto_false : goto_def := {}
deriving DecidableEq

inductive variable_type
  | EMPTY
  | BIT
  | ADDRESS_OF_A_BIT
deriving DecidableEq, Repr

/-- The struct `variable` (a reserved word here, hence the suffix). -/
structure variable_t where
  type : variable_type := .EMPTY
  index : Nat := 0
deriving DecidableEq, Repr

/-- The type `std::variant<std::monostate, bool, size_t>` returned by `get_val`. -/
inductive val_variant
  | monostate
  | bool (b : Bool)
  | size_t (n : Nat)
deriving DecidableEq, Repr

/-- The globals `memory`, `variables` (field `vars`) and `jump_register`, lines 203-220, with
`std::cin` (the characters not yet read) and `std::cout` (the words written so far,
each followed by `std::endl`). -/
structure machine where
  memory : List Bool := []
  vars : List variable_t := []
  jump_register : Bool := false
  cin : List Char := []
  cout : List String := []
deriving DecidableEq

/-- The call `v.resize(n)` of a `std::vector`, new elements being copies of `d`. -/
def resize {α : Type} (v : List α) (n : Nat) (d : α) : List α :=
  v.take n ++ List.replicate (n - v.length) d

/-- A read `v[i]` of a `std::vector`: undefined behaviour out of range. -/
def vector_at {α : Type} (v : List α) (i : Nat) : Except error α :=
  match v[i]? with
  | some x => .ok x
  | none => .error .undefined_behaviour

/-- A store `v[i] = x` into a `std::vector`: undefined behaviour out of range. -/
def vector_set {α : Type} (v : List α) (i : Nat) (x : α) : Except error (List α) :=
  if i < v.length then .ok (v.set i x) else .error .undefined_behaviour

/-! ## The parser -/

/-- The `while` loop of `read_literal`, lines 259-274.  The state is `ret`, `tok`,
`read_digit`, `read_token`; the result also carries the tokens left. -/
def read_literal_loop :
    List token → Nat → token → Bool → Bool → (Nat × token × Bool × Bool) × List token
  | [], ret, tok, read_digit, read_token => ((ret, tok, read_digit, read_token), [])
  | t :: code, ret, _, read_digit, _ =>
    if t = .ZERO ∨ t = .ONE then
      read_literal_loop code
        (if t = .ONE then ((ret <<< 1) % size_t_mod) ^^^ 1 else (ret <<< 1) % size_t_mod)
        t true true
    else
      ((ret, t, read_digit, true), t :: code)

/-- The function `read_literal`, lines 254-280.  The local `tok` is uninitialised
until the loop assigns it; it is read only after that. -/
def read_literal (code : List token) : Except error (Nat × List token) :=
  match read_literal_loop code 0 .ZERO false false with
  | ((ret, tok, read_digit, read_token), code) =>
    if !read_token then
      .error (.unexpected_end_of_program_exception "literal number")
    else if !read_digit then
      .error (.unexpected_token_exception (token_string tok) "literal number")
    else
      .ok (ret, code)

/-- The first part of `read_expression`, lines 285-344: the check for an empty
vector and the `switch` on the first token.  The recursive calls of `read_expression`
go through `recurse`. -/
def read_expression_switch
    (recurse : List token → Bool → Except error (expr_variant × List token))
    (code : List token) : Except error (expr_variant × List token) :=
  match code with
  | [] => .error (.unexpected_end_of_program_exception "expression")
  | tok :: rest =>
    match tok with
    | .ZERO | .ONE => do
      let (n, code) ← read_literal code
      pure (.size_t n, code)
    | .THEJUMPREGISTER =>
      pure (.ptr (.mk .THE_JUMP_REGISTER .monostate .monostate), rest)
    | .VARIABLE => do
      let (n, code) ← read_literal rest
      pure (.ptr (.mk .VARIABLE .monostate (.size_t n)), code)
    | .THEVALUEAT => do
      let (e, code) ← recurse rest false
      pure (.ptr (.mk .THE_VALUE_AT .monostate e), code)
    | .THEVALUEBEYOND => do
      let (e, code) ← recurse rest false
      pure (.ptr (.mk .THE_VALUE_BEYOND .monostate e), code)
    | .THEADDRESSOF => do
      let (e, code) ← recurse rest false
      pure (.ptr (.mk .THE_ADDRESS_OF .monostate e), code)
    | .OPENPARENTHESIS => recurse rest true
    | _ => .error (.unexpected_token_exception (token_string tok) "expression")

/-- The second part of `read_expression`, lines 345-357: a `NAND` after the
expression read so far takes it as left operand and a whole expression as right
operand. -/
def read_expression_nand
    (recurse : List token → Bool → Except error (expr_variant × List token))
    (expr : expr_variant) (code : List token) : Except error (expr_variant × List token) :=
  match code with
  | .NAND :: rest => do
    let (r, code) ← recurse rest false
    pure (.ptr (.mk .NAND expr r), code)
  | _ => pure (expr, code)

/-- The last part of `read_expression`, lines 358-365: inside parentheses, and if a
token is left, that token is popped and must be `CLOSEPARENTHESIS`. -/
def read_expression_close (in_parentheses : Bool) (expr : expr_variant) (code : List token) :
    Except error (expr_variant × List token) :=
  match in_parentheses, code with
  | true, tok :: rest =>
    if tok ≠ .CLOSEPARENTHESIS then
      .error (.unexpected_token_exception (token_string tok) "parentheses")
    else
      pure (expr, rest)
  | _, _ => pure (expr, code)

/-- The function `read_expression`, lines 282-366, with the depth of recursion
bounded by the first argument. -/
def read_expression_fuel :
    Nat → List token → Bool → Except error (expr_variant × List token)
  | 0 => fun _ _ => .error .out_of_fuel
  | fuel + 1 => fun code in_parentheses => do
    let (expr, code) ← read_expression_switch (read_expression_fuel fuel) code
    let (expr, code) ← read_expression_nand (read_expression_fuel fuel) expr code
    read_expression_close in_parentheses expr code

/-- The function `read_expression`: every recursive call comes after a `pop_back`,
so a depth of one more than the number of tokens is never exceeded
(`read_expression_fuel_total`). -/
def read_expression (code : List token) (in_parentheses : Bool := false) :
    Except error (expr_variant × List token) :=
  read_expression_fuel (code.length + 1) code in_parentheses

/-- The target of the pointer `goto_def* definition` in `read_gotos`. -/
inductive goto_slot
  | goto_unconditional
  | goto_true
  | goto_false
deriving DecidableEq, Repr

/-- The read `definition->enabled` and friends. -/
def goto_slot.deref (slot : goto_slot) (lin : line) : goto_def :=
  match slot with
  | .goto_unconditional => lin.goto_unconditional
  | .goto_true => lin.goto_true
  | .goto_false => lin.goto_false

/-- A write through `definition`. -/
def goto_slot.assign (slot : goto_slot) (lin : line) (d : goto_def) : line :=
  match slot with
  | .goto_unconditional => { lin with goto_unconditional := d }
  | .goto_true => { lin with goto_true := d }
  | .goto_false => { lin with goto_false := d }

/-- The choice of `definition` in `read_gotos`, lines 384-405, on the tokens that
follow the destination literal: the slot the pointer ends up at and the tokens left.
The `switch` on the token after `IFTHEJUMPREGISTERIS` has no `default`: any token but
`ZERO` and `ONE` is left in place and the pointer stays at `goto_unconditional`. -/
def read_gotos_definition (code : List token) (lin : line) :
    Except error (goto_slot × List token) :=
  match code with
  | .IFTHEJUMPREGISTERIS :: code =>
    match code with
    | [] => .error (.unexpected_end_of_program_exception "goto")
    | .ZERO :: code => pure (.goto_false, code)
    | .ONE :: code => pure (.goto_true, code)
    | _ => pure (.goto_unconditional, code)
  | _ =>
    if lin.goto_true.enabled || lin.goto_false.enabled then
      .error (.duplicate_goto_exception lin.line_number)
    else
      pure (.goto_unconditional, code)

/-- The function `read_gotos`, lines 368-412, with the depth of recursion bounded by
the first argument.  The line is updated in place in the source and returned here. -/
def read_gotos_fuel : Nat → List token → line → Except error (line × List token)
  | 0, _, _ => .error .out_of_fuel
  | fuel + 1, code, lin =>
    match code with
    | [] => .ok (lin, code)
    | tok :: rest =>
      if tok = .LINENUMBER then
        .ok (lin, code)
      else if lin.goto_unconditional.enabled then
        .error (.duplicate_goto_exception lin.line_number)
      else if tok ≠ .GOTO then
        .error (.unexpected_token_exception (token_string tok) "goto")
      else if rest = [] then
        .error (.unexpected_end_of_program_exception "goto")
      else do
        let (linenum, code) ← read_literal rest
        let (definition, code) ← read_gotos_definition code lin
        if (definition.deref lin).enabled then
          .error (.duplicate_goto_exception lin.line_number)
        else
          match code with
          | .GOTO :: _ =>
            read_gotos_fuel fuel code
              (definition.assign lin { enabled := true, destination := linenum })
          | _ => pure (definition.assign lin { enabled := true, destination := linenum }, code)

/-- The function `read_gotos`: each recursive call comes after at least one
`pop_back` (`read_gotos_fuel_total`). -/
def read_gotos (code : List token) (lin : line) : Except error (line × List token) :=
  read_gotos_fuel (code.length + 1) code lin

/-- The `default` case of the `switch` in `parse`, lines 467-491: an equals command.
Returns the line with its command, the tokens left and the line numbers warned about
on `std::cerr` so far. -/
def parse_equals (strict_mode : Bool) (code : List token) (lin : line) (warnings : List Nat) :
    Except error (line × List token × List Nat) := do
  let (v, code) ← read_expression code
  match v with
  | .ptr var =>
    match code with
    | [] => .error (.unexpected_end_of_program_exception "line")
    | tok :: code =>
      if tok ≠ .EQUALS then
        .error (.unexpected_token_exception (token_string tok) "line")
      else if code = [] then
        .error (.unexpected_end_of_program_exception "line")
      else do
        let (val, code) ← read_expression code
        match val with
        | .size_t n =>
          if n > 1 then
            .error (.invalid_operation_exception "used multi-bit literal in EQUALS command")
          else
            pure ({ lin with command := .equals_command ⟨var, val⟩ }, code, warnings)
        | .ptr e =>
          if e.type = .THE_JUMP_REGISTER then
            if strict_mode then
              .error (.invalid_operation_exception
                ("used THE JUMP REGISTER on right-hand side of EQUALS command on line "
                  ++ toString lin.line_number))
            else
              pure ({ lin with command := .equals_command ⟨var, val⟩ }, code,
                warnings ++ [lin.line_number])
          else
            pure ({ lin with command := .equals_command ⟨var, val⟩ }, code, warnings)
        | .monostate =>
          pure ({ lin with command := .equals_command ⟨var, val⟩ }, code, warnings)
  | _ => .error .bad_variant_access

/-- The body of a line, lines 437-492 of `parse`: the `switch` on the token after
`CODE`.  `code` is not empty. -/
def parse_body (strict_mode : Bool) (code : List token) (lin : line) (warnings : List Nat) :
    Except error (line × List token × List Nat) :=
  match code with
  | [] => .error (.unexpected_end_of_program_exception "line")
  | .PRINT :: code =>
    match code with
    | [] => .error (.unexpected_end_of_program_exception "line")
    | .ZERO :: code => .ok ({ lin with command := .bool false }, code, warnings)
    | .ONE :: code => .ok ({ lin with command := .bool true }, code, warnings)
    | tok :: _ => .error (.unexpected_token_exception (token_string tok) "print command")
  | .READ :: code =>
    if code = [] then
      .error (.unexpected_end_of_program_exception "line")
    else
      .ok (lin, code, warnings)
  | _ => parse_equals strict_mode code lin warnings

/-- The `while` loop of `parse`, lines 419-497, bounded by the first argument: the
tokens left, the table `ret` and the warnings so far.  The new size
`line_number + 1` of the table is a `size_t`; when it wraps to 0 the store
`ret[line_number] = lin` that follows is out of range. -/
def parse_fuel (strict_mode : Bool) :
    Nat → List token → List line → List Nat → Except error (List line × List Nat)
  | _, [], ret, warnings => .ok (ret, warnings)
  | 0, _ :: _, _, _ => .error .out_of_fuel
  | fuel + 1, tok :: code, ret, warnings =>
    if tok ≠ .LINENUMBER then
      .error (.unexpected_token_exception (token_string tok) "line number")
    else do
      let (line_number, code) ← read_literal code
      match code with
      | [] => .error (.unexpected_end_of_program_exception "line number")
      | tok :: code =>
        if tok ≠ .CODE then
          .error (.unexpected_token_exception (token_string tok) "line number")
        else if code = [] then
          .error (.unexpected_end_of_program_exception "line")
        else do
          let (lin, code, warnings) ←
            parse_body strict_mode code { enabled := true, line_number := line_number } warnings
          let (lin, code) ← read_gotos code lin
          let ret ←
            vector_set
              (if line_number ≥ ret.length then resize ret ((line_number + 1) % size_t_mod) {}
              else ret)
              line_number lin
          parse_fuel strict_mode fuel code ret warnings

/-- The function `parse`, lines 414-499, with the global `strict_mode` as a
parameter.  Every iteration pops at least one token, so the number of tokens bounds
the number of iterations (`parse_fuel_total`).  The second component lists the line
numbers of the warnings written to `std::cerr`. -/
def parse (strict_mode : Bool) (code : List token) : Except error (List line × List Nat) :=
  parse_fuel strict_mode code.length code [] []

/-! ## The bit reader -/

inductive partial_bit
  | EMPTY
  | Z
  | ZE
  | ZER
  | O
  | ON
deriving DecidableEq, Repr

/-- The loop of `read_bit`, lines 515-562, over the characters left on `std::cin`.
`none` when the stream ends before a word is completed: the extraction then fails
forever and the loop never returns. -/
def read_bit_loop : List Char → partial_bit → Option (Bool × List Char)
  | [], _ => none
  | ch :: cin, tok =>
    if isspace ch then
      read_bit_loop cin tok
    else if ch = 'O' then
      if tok = .ZER then some (false, cin) else read_bit_loop cin .O
    else if ch = 'N' then
      if tok = .O then read_bit_loop cin .ON else read_bit_loop cin .EMPTY
    else if ch = 'E' then
      if tok = .ON then some (true, cin)
      else if tok = .Z then read_bit_loop cin .ZE
      else read_bit_loop cin .EMPTY
    else if ch = 'Z' then
      read_bit_loop cin .Z
    else if ch = 'R' then
      if tok = .ZE then read_bit_loop cin .ZER else read_bit_loop cin .EMPTY
    else
      read_bit_loop cin tok

/-- The function `read_bit`, lines 511-563. -/
def read_bit (cin : List Char) : Option (Bool × List Char) :=
  read_bit_loop cin .EMPTY

/-! ## The evaluator -/

mutual
/-- The function `get_val`, lines 567-599. -/
def get_val : expression → machine → Except error (val_variant × machine)
  | .mk type lvalue rvalue, m =>
    match type with
    | .VARIABLE =>
      match rvalue with
      | .size_t id => do
        let var ← vector_at m.vars id
        match var.type with
        | .EMPTY => .error (.invalid_operation_exception "accessed uninitialised memory")
        | .BIT => do
          let b ← vector_at m.memory var.index
          pure (.bool b, m)
        | .ADDRESS_OF_A_BIT => pure (.size_t var.index, m)
      | _ => .error .bad_variant_access
    | .THE_ADDRESS_OF =>
      match rvalue with
      | .ptr e => do
        let (a, m) ← get_address e m
        pure (.size_t a, m)
      | _ => .error .bad_variant_access
    | .THE_VALUE_AT | .THE_VALUE_BEYOND => do
      let (a, m) ← get_address_of type rvalue m
      let b ← vector_at m.memory a
      pure (.bool b, m)
    | .THE_JUMP_REGISTER => pure (.bool m.jump_register, m)
    | .NAND => do
      let (a, m) ←
        (match lvalue with
        | .ptr e => do
          let (v, m) ← get_val e m
          match v with
          | .bool b => pure (b, m)
          | _ => .error .bad_variant_access
        | .size_t n => pure (n != 0, m)
        | .monostate => .error .bad_variant_access
        : Except error (Bool × machine))
      if a then do
        let (b, m) ←
          (match rvalue with
          | .ptr e => do
            let (v, m) ← get_val e m
            match v with
            | .bool b => pure (b, m)
            | _ => .error .bad_variant_access
          | .size_t n => pure (n != 0, m)
          | .monostate => .error .bad_variant_access
          : Except error (Bool × machine))
        pure (.bool (!(a && b)), m)
      else
        pure (.bool true, m)
/-- The function `get_address`, lines 601-625, applied to `expr`. -/
def get_address : expression → machine → Except error (Nat × machine)
  | .mk type _ rvalue, m => get_address_of type rvalue m
/-- The body of `get_address`, which reads only `expr->type` and `expr->rvalue`.
It is a function of its own so that `get_val` can call `get_address(expr)` on the
very expression it was given (line 591).  The new size `index + 1` of the table and
the address `+ 1` of THE VALUE BEYOND are computed in `size_t`. -/
def get_address_of : expression_type → expr_variant → machine → Except error (Nat × machine)
  | type, rvalue, m =>
    match type with
    | .VARIABLE =>
      match rvalue with
      | .size_t index => do
        let vars ←
          (if index ≥ m.vars.length then
            vector_set (resize m.vars ((index + 1) % size_t_mod) {}) index
              { type := .BIT, index := m.memory.length }
          else
            pure m.vars
          : Except error (List variable_t))
        let var ← vector_at vars index
        if var.type = .ADDRESS_OF_A_BIT then
          .error (.invalid_operation_exception
            "tried to take the address of an address variable")
        else
          pure (var.index, { m with vars := vars })
      | _ => .error .bad_variant_access
    | .THE_VALUE_AT =>
      match rvalue with
      | .ptr e => do
        let (v, m) ← get_val e m
        match v with
        | .size_t n => pure (n, m)
        | _ => .error .bad_variant_access
      | _ => .error .bad_variant_access
    | .THE_VALUE_BEYOND =>
      match rvalue with
      | .ptr e => do
        let (v, m) ← get_val e m
        match v with
        | .size_t n => pure ((n + 1) % size_t_mod, m)
        | _ => .error .bad_variant_access
      | _ => .error .bad_variant_access
    | _ =>
      .error (.invalid_operation_exception
        ("get_address(): this is bad. expr->type = " ++ toString type.to_size_t))
end

/-! ## The executor -/

/-- The scan `do lin = program[i++]; while (!lin.enabled);`, lines 629-633. -/
def first_enabled : List line → Except error line
  | [] => .error .undefined_behaviour
  | lin :: program => if lin.enabled then .ok lin else first_enabled program

/-- The EQUALS branch of `execute`, lines 642-669.  The new sizes `index + 1` of the
table and of the memory are computed in `size_t`. -/
def execute_equals (eq : equals_command) (m : machine) : Except error machine := do
  let (val, m) ←
    (match eq.val with
    | .size_t n => pure (val_variant.bool (n != 0), m)
    | .ptr e => get_val e m
    | .monostate => .error .bad_variant_access
    : Except error (val_variant × machine))
  if eq.var.type = .THE_JUMP_REGISTER then
    match val with
    | .bool b => pure { m with jump_register := b }
    | _ => .error .bad_variant_access
  else
    match val with
    | .size_t a =>
      match eq.var.rvalue with
      | .size_t index => do
        let vars :=
          if index ≥ m.vars.length then resize m.vars ((index + 1) % size_t_mod) {}
          else m.vars
        let var ← vector_at vars index
        if var.type = .BIT then
          .error (.invalid_operation_exception "tried to place an address in a bit variable")
        else do
          let vars ← vector_set vars index { type := .ADDRESS_OF_A_BIT, index := a }
          pure { m with vars := vars }
      | _ => .error .bad_variant_access
    | _ => do
      let (index, m) ← get_address eq.var m
      let memory :=
        if index ≥ m.memory.length then resize m.memory ((index + 1) % size_t_mod) false
        else m.memory
      match val with
      | .bool b => do
        let memory ← vector_set memory index b
        pure { m with memory := memory }
      | _ => .error .bad_variant_access

/-- The command of a line, lines 636-670.  `none` when `read_bit` never returns. -/
def execute_command (lin : line) (m : machine) : Except error (Option machine) :=
  match lin.command with
  | .monostate =>
    match read_bit m.cin with
    | none => pure none
    | some (b, cin) => pure (some { m with jump_register := b, cin := cin })
  | .bool b => pure (some { m with cout := m.cout ++ [if b then "ONE" else "ZERO"] })
  | .equals_command eq => do
    let m ← execute_equals eq m
    pure (some m)

/-- The control transfer, lines 672-679: the line to run next, or `none` at `break`. -/
def next_line (program : List line) (lin : line) (jump_register : Bool) :
    Except error (Option line) :=
  if lin.goto_unconditional.enabled then do
    let l ← vector_at program lin.goto_unconditional.destination
    pure (some l)
  else if lin.goto_false.enabled && !jump_register then do
    let l ← vector_at program lin.goto_false.destination
    pure (some l)
  else if lin.goto_true.enabled && jump_register then do
    let l ← vector_at program lin.goto_true.destination
    pure (some l)
  else
    pure none

/-- The loop `while (true)` of `execute`, lines 634-680, run for at most `fuel`
iterations from line `lin`.  `some m` when the loop reached `break` with the machine
in state `m`; `none` when it is still running after `fuel` iterations or waits in
`read_bit` for ever. -/
def execute_loop (program : List line) : Nat → line → machine → Except error (Option machine)
  | 0, _, _ => pure none
  | fuel + 1, lin, m => do
    match ← execute_command lin m with
    | none => pure none
    | some m =>
      match ← next_line program lin m.jump_register with
      | none => pure (some m)
      | some lin => execute_loop program fuel lin m

/-- The function `execute`, lines 627-681. -/
def execute (fuel : Nat) (program : List line) (m : machine) : Except error (Option machine) := do
  let lin ← first_enabled program
  execute_loop program fuel lin m

/-- The function `main` after the command line is read, lines 703-706: lex the
program text, parse it, execute it with `cin` on the standard input. -/
def run (strict_mode : Bool) (fuel : Nat) (fobj : List Char) (cin : List Char) :
    Except error (Option machine) := do
  let tokens ← lex fobj
  let (program, _) ← parse strict_mode tokens
  execute fuel program { cin := cin }

/-! ## Notions used to state the properties -/

/-- The concatenation of the keyword spellings of a list of tokens. -/
def spell : List token → List Char
  | [] => []
  | t :: ts => (token_string t).toList ++ spell ts

/-- The characters of a stream that are not whitespace, in order. -/
def strip_spaces (cs : List Char) : List Char :=
  cs.filter fun ch => !isspace ch

/-- A digit of a literal: the token `ZERO` or `ONE`. -/
def is_digit (t : token) : Bool :=
  t = .ZERO || t = .ONE

/-- The binary value of a sequence of digits read most significant bit first,
starting from the value `v` of the digits already read. -/
def binary_value_from (v : Nat) (ds : List token) : Nat :=
  ds.foldl (fun acc d => 2 * acc + (if d = .ONE then 1 else 0)) v

/-- The binary value of a sequence of digits read most significant bit first. -/
def binary_value (ds : List token) : Nat :=
  binary_value_from 0 ds

/-- A literal of the grammar: a non-empty sequence of `ZERO` and `ONE`. -/
def is_literal (ds : List token) : Prop :=
  ds ≠ [] ∧ ∀ d ∈ ds, is_digit d = true

instance (ds : List token) : Decidable (is_literal ds) := by
  unfold is_literal
  infer_instance

/-- The tokens `rest` do not begin with a digit: a literal read just before them
ends there. -/
def no_digit_ahead : List token → Bool
  | [] => true
  | t :: _ => !is_digit t

/-- The token spelling a bit: `ONE` for true, `ZERO` for false. -/
def bit_token (b : Bool) : token :=
  if b then .ONE else .ZERO

/-- The table holding a single defined line `lin` at index `n`: `n` default
(disabled) entries followed by `lin`. -/
def single_line_table (n : Nat) (lin : line) : List line :=
  List.replicate n ({} : line) ++ [lin]

/-- A primary of the grammar that ends where its own tokens end: a literal,
`THEJUMPREGISTER`, `VARIABLE` with a literal, or an expression between parentheses;
`closed_primary ts v` says that the tokens `ts` are such a primary and read as `v`.
The prefix forms `THEVALUEAT`, `THEVALUEBEYOND` and `THEADDRESSOF` are left out:
their operand is a whole expression. -/
inductive closed_primary : List token → expr_variant → Prop
  | literal (ds : List token) :
    is_literal ds → closed_primary ds (.size_t (binary_value ds % size_t_mod))
  | jump_register :
    closed_primary [.THEJUMPREGISTER] (.ptr (.mk .THE_JUMP_REGISTER .monostate .monostate))
  | variable_literal (ds : List token) :
    is_literal ds →
      closed_primary (.VARIABLE :: ds)
        (.ptr (.mk .VARIABLE .monostate (.size_t (binary_value ds % size_t_mod))))
  | parenthesised (ts : List token) (v : expr_variant) :
    (∀ rest, read_expression (ts ++ .CLOSEPARENTHESIS :: rest) true = .ok (v, rest)) →
      closed_primary (.OPENPARENTHESIS :: ts ++ [.CLOSEPARENTHESIS]) v

/-- The tokens of the chain `P1 NAND P2 NAND ... NAND Pn NAND last`. -/
def nand_chain_tokens : List (List token) → List token → List token
  | [], last => last
  | p :: ps, last => p ++ .NAND :: nand_chain_tokens ps last

/-- The right-nested tree `Nand(v1, Nand(v2, ... Nand(vn, last)))`. -/
def nand_chain_tree : List expr_variant → expr_variant → expr_variant
  | [], last => last
  | v :: vs, last => .ptr (.mk .NAND v (nand_chain_tree vs last))

/-- The tokens `rest` end an operand that is a bare literal: they begin neither with
a digit, which would continue the literal, nor with `NAND`, which would make the
literal the left operand of a NAND expression. -/
def literal_operand_ends : List token → Bool
  | [] => true
  | t :: _ => !is_digit t && t != .NAND

/-- The expression that `read_expression` builds for `VARIABLE n`. -/
def variable_expr (n : Nat) : expression :=
  .mk .VARIABLE .monostate (.size_t n)

/-- The expression that `read_expression` builds for `THEVALUEAT e`, for an
expression node `e`. -/
def the_value_at (e : expression) : expression :=
  .mk .THE_VALUE_AT .monostate (.ptr e)

/-- The expression that `read_expression` builds for `THEADDRESSOF e`, for an
expression node `e`. -/
def the_address_of (e : expression) : expression :=
  .mk .THE_ADDRESS_OF .monostate (.ptr e)

/-- The right-hand side that `read_expression` builds for the literal `ZERO` or `ONE`. -/
def bit_literal (v : Bool) : expr_variant :=
  .size_t (if v then 1 else 0)

/-- One goto of a goto list as the grammar writes it: `GOTO dest`, or
`GOTO dest IFTHEJUMPREGISTERIS b` when `cond` is `some b`. -/
structure goto_item where
  dest : List token
  cond : Option Bool

/-- The tokens of one goto. -/
def goto_item.tokens (g : goto_item) : List token :=
  .GOTO :: g.dest ++
    (match g.cond with
     | none => []
     | some b => [.IFTHEJUMPREGISTERIS, bit_token b])

/-- The tokens of a goto list. -/
def goto_list_tokens : List goto_item → List token
  | [] => []
  | g :: gs => g.tokens ++ goto_list_tokens gs

/-- The rule of the specification for one goto, in its words: adding an unconditional
goto alongside any existing goto, or a second conditional goto for the same
jump-register value, fails with `DuplicateGoto(line_number)`; a conditional goto added
to a line that has an unconditional one fails likewise. -/
def add_goto (lin : line) (g : goto_item) : Except error line :=
  match g.cond with
  | none =>
    if lin.goto_unconditional.enabled || lin.goto_true.enabled || lin.goto_false.enabled then
      .error (.duplicate_goto_exception lin.line_number)
    else
      .ok { lin with goto_unconditional := ⟨true, binary_value g.dest % size_t_mod⟩ }
  | some true =>
    if lin.goto_unconditional.enabled || lin.goto_true.enabled then
      .error (.duplicate_goto_exception lin.line_number)
    else
      .ok { lin with goto_true := ⟨true, binary_value g.dest % size_t_mod⟩ }
  | some false =>
    if lin.goto_unconditional.enabled || lin.goto_false.enabled then
      .error (.duplicate_goto_exception lin.line_number)
    else
      .ok { lin with goto_false := ⟨true, binary_value g.dest % size_t_mod⟩ }

/-- The rule of the specification for a goto list: the gotos are added in order. -/
def add_gotos : line → List goto_item → Except error line
  | lin, [] => .ok lin
  | lin, g :: gs =>
    match add_goto lin g with
    | .error e => .error e
    | .ok lin2 => add_gotos lin2 gs

/-- The tokens after a goto list: nothing, or the `LINENUMBER` of the next line. -/
def goto_list_ends : List token → Bool
  | [] => true
  | t :: _ => t = .LINENUMBER

/-- An operand of NAND reduces to the bit `b`, taking the machine from `m` to `m2`: a
literal is true exactly when it is not zero and leaves the machine as it is; an
expression must evaluate to a bit. -/
def reduces_to_bit (o : expr_variant) (m : machine) (b : Bool) (m2 : machine) : Prop :=
  match o with
  | .size_t n => b = (n != 0) ∧ m2 = m
  | .ptr e => get_val e m = .ok (.bool b, m2)
  | .monostate => False

/-- The shape of the table that `parse` builds: an entry that is defined carries its
own index as line number, and the last entry is defined. -/
def table_shape (ret : List line) : Prop :=
  ∀ (i : Nat) (l : line), ret[i]? = some l →
    (l.enabled = true → l.line_number = i) ∧ (i + 1 = ret.length → l.enabled = true)

/-- The four kinds of error the specification lists for the parser. -/
def error.parse_kind : error → Bool
  | .unexpected_token_exception _ _ => true
  | .unexpected_end_of_program_exception _ => true
  | .duplicate_goto_exception _ => true
  | .invalid_operation_exception _ => true
  | _ => false

/-- The errors the functions of the parser can produce: the four kinds of the
specification, `std::bad_variant_access`, and the exhaustion of the bound on the
recursion, which the top-level functions never reach. -/
def error.parser_error : error → Bool
  | .unexpected_token_exception _ _ => true
  | .unexpected_end_of_program_exception _ => true
  | .duplicate_goto_exception _ => true
  | .invalid_operation_exception _ => true
  | .bad_variant_access => true
  | .out_of_fuel => true
  | _ => false

/-! # Theorems -/

/-! ## Vectors -/

theorem length_resize {α : Type} (v : List α) (n : Nat) (d : α) :
    (resize v n d).length = n := by
  simp [resize]
  omega

theorem vector_set_error {α : Type} {v : List α} {i : Nat} {x : α} {e : error}
    (h : vector_set v i x = .error e) : e = .undefined_behaviour := by
  unfold vector_set at h
  by_cases hlt : i < v.length
  · rw [if_pos hlt] at h; cases h
  · rw [if_neg hlt] at h
    exact (Except.error.inj h).symm

/-- A store right after the `resize` to `index + 1`, when `index + 1` does not wrap. -/
theorem vector_set_resize {α : Type} (v : List α) (n : Nat) (d x : α)
    (hn : n + 1 < size_t_mod) :
    vector_set (if n ≥ v.length then resize v ((n + 1) % size_t_mod) d else v) n x =
      .ok ((if n ≥ v.length then resize v (n + 1) d else v).set n x) := by
  rw [Nat.mod_eq_of_lt hn]
  unfold vector_set
  rw [if_pos]
  split
  · rw [length_resize]; exact Nat.lt_succ_self _
  · omega

/-- A store right after the `resize` that succeeded: `index + 1` did not wrap, or no
`resize` was needed. -/
theorem vector_set_resize_inv {α : Type} {v r : List α} {n : Nat} {d x : α}
    (h : vector_set (if n ≥ v.length then resize v ((n + 1) % size_t_mod) d else v) n x =
      .ok r) :
    r = (if n ≥ v.length then resize v (n + 1) d else v).set n x ∧
      (n < v.length ∨ n + 1 < size_t_mod) := by
  unfold vector_set at h
  by_cases hge : n ≥ v.length
  · simp only [hge, if_true, length_resize] at h ⊢
    by_cases hlt : n < (n + 1) % size_t_mod
    · have hle : (n + 1) % size_t_mod ≤ n + 1 := Nat.mod_le _ _
      have heq : (n + 1) % size_t_mod = n + 1 := by omega
      have hm : n + 1 < size_t_mod := by
        have := Nat.mod_lt (n + 1) (show size_t_mod > 0 by decide)
        omega
      rw [if_pos hlt, heq] at h
      exact ⟨(Except.ok.inj h).symm, Or.inr hm⟩
    · rw [if_neg hlt] at h
      cases h
  · simp only [hge, if_false] at h ⊢
    rw [if_pos (by omega)] at h
    exact ⟨(Except.ok.inj h).symm, Or.inl (by omega)⟩

/-- A store right after the `resize` to an `index + 1` that wrapped to 0. -/
theorem vector_set_resize_wrap {α : Type} (v : List α) (d x : α) :
    vector_set (resize v ((size_t_mod - 1 + 1) % size_t_mod) d) (size_t_mod - 1) x =
      .error .undefined_behaviour := by
  have h : (size_t_mod - 1 + 1) % size_t_mod = 0 := by decide
  rw [h]
  simp [vector_set, resize]
/-! ## Tokenizer -/

theorem lex_loop_strip_spaces (cs : List Char) (ret : List token) (tok : String) :
    lex_loop cs ret tok = lex_loop (strip_spaces cs) ret tok := by
  induction cs generalizing ret tok with
  | nil => rfl
  | cons ch cs ih =>
    by_cases hs : isspace ch = true
    · simp [strip_spaces, lex_loop, hs]
      simpa [strip_spaces] using ih ret tok
    · have hs2 : isspace ch = false := by simpa using hs
      simp only [strip_spaces, List.filter_cons, hs2, lex_loop, Bool.not_false, if_true]
      simp only [Bool.false_eq_true, if_false]
      by_cases hu : isupper ch = true
      · simp only [hu, Bool.not_true, Bool.false_eq_true, if_false]
        cases find_token (tok.push ch) with
        | none => simpa [strip_spaces] using ih ret (tok.push ch)
        | some t => simpa [strip_spaces] using ih (ret ++ [t]) ""
      · simp [hu]



theorem lex_loop_spelling (t : token) (rest : List Char) (ret : List token) :
    lex_loop ((token_string t).toList ++ rest) ret "" = lex_loop rest (ret ++ [t]) "" := by
  cases t <;> rfl

theorem lex_loop_spell (toks : List token) (ret : List token) :
    lex_loop (spell toks) ret "" = .ok (ret ++ toks, "") := by
  induction toks generalizing ret with
  | nil => simp [spell, lex_loop]
  | cons t ts ih => rw [spell, lex_loop_spelling, ih]; simp

theorem token_roundtrip (i : Nat) (h : i < 17) : (token.of_size_t i).to_size_t = i := by
  interval_cases i <;> rfl

theorem find_token_some {s : String} {t : token} (h : find_token s = some t) :
    token_string t = s := by
  unfold find_token at h
  rw [Option.map_eq_some'] at h
  obtain ⟨i, hi, rfl⟩ := h
  rw [List.indexOf?, List.findIdx?_eq_some_iff_getElem] at hi
  obtain ⟨hlt, heq, -⟩ := hi
  have h17 : i < 17 := hlt
  simp only [token_string, token_roundtrip i h17]
  rw [List.getD_eq_getElem _ _ hlt]
  simpa using heq


theorem lex_loop_invalid_character (pre : List Char) (c : Char) (post : List Char)
    (hpre : ∀ x ∈ pre, isspace x = true ∨ isupper x = true)
    (hs : isspace c = false) (hu : isupper c = false) (ret : List token) (tok : String) :
    lex_loop (pre ++ c :: post) ret tok = .error (.invalid_character_exception c) := by
  induction pre generalizing ret tok with
  | nil => simp [lex_loop, hs, hu]
  | cons ch pre ih =>
    have hrest : ∀ x ∈ pre, isspace x = true ∨ isupper x = true :=
      fun x hx => hpre x (List.mem_cons_of_mem _ hx)
    rw [List.cons_append, lex_loop]
    by_cases h1 : isspace ch = true
    · rw [if_pos h1]; exact ih hrest ret tok
    · rw [if_neg h1]
      have h2 : isupper ch = true := (hpre ch (List.mem_cons_self _ _)).resolve_left h1
      simp only [h2, Bool.not_true, Bool.false_eq_true, if_false]
      cases find_token (tok.push ch) with
      | none => exact ih hrest ret (tok.push ch)
      | some t => exact ih hrest (ret ++ [t]) ""

theorem lex_loop_alpha (cs : List Char)
    (h : ∀ x ∈ cs, isspace x = true ∨ isupper x = true)
    (ret : List token) (tok : String) (hn : find_token tok = none) :
    ∃ new w, lex_loop cs ret tok = .ok (ret ++ new, w) ∧ find_token w = none ∧
      tok.toList ++ strip_spaces cs = spell new ++ w.toList := by
  induction cs generalizing ret tok with
  | nil => exact ⟨[], tok, by simp [lex_loop], hn, by simp [strip_spaces, spell]⟩
  | cons ch cs ih =>
    have hrest : ∀ x ∈ cs, isspace x = true ∨ isupper x = true :=
      fun x hx => h x (List.mem_cons_of_mem _ hx)
    rw [lex_loop]
    by_cases h1 : isspace ch = true
    · rw [if_pos h1]
      obtain ⟨new, w, e1, e2, e3⟩ := ih hrest ret tok hn
      exact ⟨new, w, e1, e2, by simpa [strip_spaces, h1] using e3⟩
    · rw [if_neg h1]
      have h2 : isupper ch = true := (h ch (List.mem_cons_self _ _)).resolve_left h1
      have h1f : isspace ch = false := by simpa using h1
      simp only [h2, Bool.not_true, Bool.false_eq_true, if_false]
      cases hf : find_token (tok.push ch) with
      | none =>
        obtain ⟨new, w, e1, e2, e3⟩ := ih hrest ret (tok.push ch) hf
        refine ⟨new, w, e1, e2, ?_⟩
        rw [← e3]
        simp [strip_spaces, h1f, String.push]
      | some t =>
        obtain ⟨new, w, e1, e2, e3⟩ := ih hrest (ret ++ [t]) "" (by decide)
        refine ⟨t :: new, w, by simpa using e1, e2, ?_⟩
        have hsp := find_token_some hf
        rw [spell, hsp, List.append_assoc, ← e3]
        simp [strip_spaces, h1f, String.push]

/-- C1. Tokenizer round trip: whenever the non-whitespace characters of a stream are
exactly the concatenated keyword spellings of a list of tokens (whitespace may stand
anywhere, between or inside the spellings), `lex` succeeds and returns that list. -/
theorem C1_lex_round_trip (toks : List token) (cs : List Char)
    (h : strip_spaces cs = spell toks) : lex cs = .ok toks := by
  simp [lex, lex_loop_strip_spaces cs, h, lex_loop_spell]

theorem C1_lex_round_trip_witness :
    strip_spaces " ZE RO\n ONE\t".toList = spell [.ZERO, .ONE] ∧
      lex " ZE RO\n ONE\t".toList = .ok [.ZERO, .ONE] :=
  ⟨by decide, C1_lex_round_trip [.ZERO, .ONE] " ZE RO\n ONE\t".toList (by decide)⟩

/-- C2. If a stream holds a character that is neither whitespace nor an uppercase
letter, `lex` fails with `invalid_character_exception` carrying the first such
character, whatever follows it. -/
theorem C2_lex_invalid_character (pre : List Char) (c : Char) (post : List Char)
    (hpre : ∀ x ∈ pre, isspace x = true ∨ isupper x = true)
    (hs : isspace c = false) (hu : isupper c = false) :
    lex (pre ++ c :: post) = .error (.invalid_character_exception c) := by
  simp [lex, lex_loop_invalid_character pre c post hpre hs hu]

theorem C2_lex_invalid_character_witness :
    (∀ x ∈ "ZERO ON".toList, isspace x = true ∨ isupper x = true) ∧
      isspace 'e' = false ∧ isupper 'e' = false ∧
      lex ("ZERO ON".toList ++ 'e' :: " 7 ZERO".toList) =
        .error (.invalid_character_exception 'e') :=
  ⟨by decide, by decide, by decide,
    C2_lex_invalid_character "ZERO ON".toList 'e' " 7 ZERO".toList (by decide) (by decide)
      (by decide)⟩

/-- C3. On a stream of whitespace and uppercase letters only, the loop of `lex` ends
with tokens `ret` and a leftover candidate word `w` such that the non-whitespace
characters are the spellings of `ret` followed by `w`; `lex` fails with
`invalid_token_exception w` if and only if `w` is not empty, and returns `ret` when
`w` is empty. -/
theorem C3_lex_invalid_token (cs : List Char)
    (h : ∀ x ∈ cs, isspace x = true ∨ isupper x = true) :
    ∃ ret w, lex_loop cs [] "" = .ok (ret, w) ∧
      strip_spaces cs = spell ret ++ w.toList ∧
      (lex cs = .error (.invalid_token_exception w) ↔ w ≠ "") ∧
      (w = "" → lex cs = .ok ret) := by
  obtain ⟨new, w, e1, e2, e3⟩ := lex_loop_alpha cs h [] "" (by decide)
  refine ⟨new, w, by simpa using e1, by simpa using e3, ?_, ?_⟩
  · by_cases hw : w = ""
    · simp [lex, e1, hw]
    · simp [lex, e1, hw, e2]
  · intro hw
    simp [lex, e1, hw]

theorem C3_lex_invalid_token_witness :
    (∀ x ∈ "ONE ZER".toList, isspace x = true ∨ isupper x = true) ∧
      ∃ ret w, lex_loop "ONE ZER".toList [] "" = .ok (ret, w) ∧
        strip_spaces "ONE ZER".toList = spell ret ++ w.toList ∧
        (lex "ONE ZER".toList = .error (.invalid_token_exception w) ↔ w ≠ "") ∧
        (w = "" → lex "ONE ZER".toList = .ok ret) :=
  ⟨by decide, C3_lex_invalid_token "ONE ZER".toList (by decide)⟩

theorem xor_one_of_even (k : Nat) : (2 * k) ^^^ 1 = 2 * k + 1 := by
  have h := Nat.xor_bit false k true 0
  simpa [Nat.bit_val] using h

theorem shift_xor_mod (v : Nat) :
    (((v % size_t_mod) <<< 1) % size_t_mod) ^^^ 1 = (2 * v + 1) % size_t_mod := by
  have h1 : ((v % size_t_mod) <<< 1) % size_t_mod = 2 * ((v % (2 ^ 63))) := by
    simp only [size_t_mod, Nat.shiftLeft_eq]
    omega
  rw [h1, xor_one_of_even]
  simp only [size_t_mod]
  omega

theorem shift_mod (v : Nat) :
    ((v % size_t_mod) <<< 1) % size_t_mod = (2 * v) % size_t_mod := by
  simp only [size_t_mod, Nat.shiftLeft_eq]
  omega

theorem read_literal_loop_digits (rest : List token) (hrest : no_digit_ahead rest = true)
    (ds : List token) (hds : ∀ d ∈ ds, is_digit d = true) (v : Nat) (tok : token) :
    ∃ tok2, read_literal_loop (ds ++ rest) (v % size_t_mod) tok true true =
      ((binary_value_from v ds % size_t_mod, tok2, true, true), rest) := by
  induction ds generalizing v tok with
  | nil =>
    cases rest with
    | nil => exact ⟨tok, by simp [read_literal_loop, binary_value_from]⟩
    | cons t r =>
      have ht : is_digit t = false := by simpa [no_digit_ahead] using hrest
      have ht2 : ¬ (t = .ZERO ∨ t = .ONE) := by simpa [is_digit] using ht
      exact ⟨t, by simp [read_literal_loop, binary_value_from, ht2]⟩
  | cons d ds ih =>
    have hd : is_digit d = true := hds d (List.mem_cons_self _ _)
    have hd2 : d = .ZERO ∨ d = .ONE := by simpa [is_digit] using hd
    have hrestd : ∀ x ∈ ds, is_digit x = true := fun x hx => hds x (List.mem_cons_of_mem _ hx)
    rw [List.cons_append, read_literal_loop, if_pos hd2]
    by_cases h1 : d = .ONE
    · rw [if_pos h1, shift_xor_mod]
      obtain ⟨tok2, e⟩ := ih hrestd (2 * v + 1) d
      exact ⟨tok2, by rw [e]; simp [binary_value_from, h1]⟩
    · rw [if_neg h1, shift_mod]
      obtain ⟨tok2, e⟩ := ih hrestd (2 * v) d
      exact ⟨tok2, by rw [e]; simp [binary_value_from, h1]⟩

theorem read_literal_digits (ds rest : List token) (hds : is_literal ds)
    (hrest : no_digit_ahead rest = true) :
    read_literal (ds ++ rest) = .ok (binary_value ds % size_t_mod, rest) := by
  obtain ⟨hne, hall⟩ := hds
  cases ds with
  | nil => exact absurd rfl hne
  | cons d ds =>
    have hd : is_digit d = true := hall d (List.mem_cons_self _ _)
    have hd2 : d = .ZERO ∨ d = .ONE := by simpa [is_digit] using hd
    have hrestd : ∀ x ∈ ds, is_digit x = true := fun x hx => hall x (List.mem_cons_of_mem _ hx)
    rw [read_literal, List.cons_append, read_literal_loop, if_pos hd2]
    by_cases h1 : d = .ONE
    · rw [if_pos h1]
      obtain ⟨tok2, e⟩ := read_literal_loop_digits rest hrest ds hrestd 1 d
      have e0 : ((0 <<< 1) % size_t_mod) ^^^ 1 = 1 % size_t_mod := by decide
      rw [e0, e]
      simp [binary_value, binary_value_from, h1]
    · rw [if_neg h1]
      obtain ⟨tok2, e⟩ := read_literal_loop_digits rest hrest ds hrestd 0 d
      have e0 : (0 <<< 1) % size_t_mod = 0 % size_t_mod := by decide
      rw [e0, e]
      simp [binary_value, binary_value_from, h1]

theorem resize_nil_set {α : Type} (n : Nat) (d x : α) :
    (resize [] (n + 1) d).set n x = List.replicate n d ++ [x] := by
  simp only [resize, List.take_nil, List.nil_append, List.length_nil, Nat.sub_zero]
  rw [List.replicate_succ', List.set_append_right _ _ (by simp)]
  simp

theorem first_enabled_single (n : Nat) (lin : line) (h : lin.enabled = true) :
    first_enabled (single_line_table n lin) = .ok lin := by
  induction n with
  | zero => simp [single_line_table, first_enabled, h]
  | succ n ih =>
    simp only [single_line_table, List.replicate_succ, List.cons_append, first_enabled]
    simpa [single_line_table] using ih

/-- One iteration of the loop of `parse` on a line that starts
`LINENUMBER <literal> CODE` and has at least one more token. -/
theorem parse_fuel_line (strict_mode : Bool) (fuel : Nat) (ds code : List token)
    (hds : is_literal ds) (hcode : code ≠ []) (ret : List line) (warnings : List Nat) :
    parse_fuel strict_mode (fuel + 1) (.LINENUMBER :: ds ++ .CODE :: code) ret warnings =
      (parse_body strict_mode code
        { enabled := true, line_number := binary_value ds % size_t_mod } warnings).bind
        fun r => (read_gotos r.2.1 r.1).bind fun g =>
          (vector_set
            (if binary_value ds % size_t_mod ≥ ret.length then
              resize ret ((binary_value ds % size_t_mod + 1) % size_t_mod) {} else ret)
            (binary_value ds % size_t_mod) g.1).bind fun ret2 =>
            parse_fuel strict_mode fuel g.2 ret2 r.2.2 := by
  have hlit := read_literal_digits ds (.CODE :: code) hds rfl
  rw [List.cons_append, parse_fuel]
  simp only [ne_eq, not_true_eq_false, if_false, hlit, bind, Except.bind, hcode]

/-- One iteration of the loop of `parse` on a line whose number is below `2 ^ 64 - 1`,
so that the new size of the table is computed without wrapping. -/
theorem parse_fuel_line_in_range (strict_mode : Bool) (fuel : Nat) (ds code : List token)
    (hds : is_literal ds) (hcode : code ≠ []) (ret : List line) (warnings : List Nat)
    (hn : binary_value ds % size_t_mod + 1 < size_t_mod) :
    parse_fuel strict_mode (fuel + 1) (.LINENUMBER :: ds ++ .CODE :: code) ret warnings =
      (parse_body strict_mode code
        { enabled := true, line_number := binary_value ds % size_t_mod } warnings).bind
        fun r => (read_gotos r.2.1 r.1).bind fun g =>
          parse_fuel strict_mode fuel g.2
            ((if binary_value ds % size_t_mod ≥ ret.length then
                resize ret (binary_value ds % size_t_mod + 1) {} else ret).set
              (binary_value ds % size_t_mod) g.1)
            r.2.2 := by
  rw [parse_fuel_line strict_mode fuel ds code hds hcode]
  simp only [vector_set_resize _ _ _ _ hn]
  rfl

/-- A line `LINENUMBER ds CODE PRINT b` whose number `n`, the binary value of the
literal `ds`, is below `2 ^ 64 - 1`: parsing it yields the table whose only defined
line is line `n`, with command print `b` and no goto; executing it from any machine
state appends the word for `b` once to the output and halts. -/
theorem print_line (strict_mode : Bool) (ds : List token) (hds : is_literal ds)
    (hn : binary_value ds + 1 < size_t_mod) (b : Bool) :
    parse strict_mode (.LINENUMBER :: ds ++ [.CODE, .PRINT, bit_token b]) =
        .ok (single_line_table (binary_value ds)
          { enabled := true, line_number := binary_value ds, command := .bool b }, []) ∧
      ∀ (fuel : Nat) (m : machine),
        execute (fuel + 1)
            (single_line_table (binary_value ds)
              { enabled := true, line_number := binary_value ds, command := .bool b }) m =
          .ok (some { m with cout := m.cout ++ [if b then "ONE" else "ZERO"] }) := by
  have hmod : binary_value ds % size_t_mod = binary_value ds :=
    Nat.mod_eq_of_lt (Nat.lt_of_succ_lt hn)
  constructor
  · have hlen : (token.LINENUMBER :: ds ++ [.CODE, .PRINT, bit_token b]).length =
        (ds.length + 3) + 1 := by simp
    rw [parse, hlen, parse_fuel_line_in_range strict_mode _ ds _ hds (by simp) _ _
      (by rw [hmod]; exact hn), hmod]
    cases b <;>
      simp [parse_body, bit_token, read_gotos, read_gotos_fuel, Except.bind, parse_fuel,
        single_line_table, resize_nil_set]
  · intro fuel m
    simp [execute, first_enabled_single, execute_loop, execute_command, next_line,
      bind, Except.bind, pure, Except.pure]

theorem print_line_zero :
    parse false [.LINENUMBER, .ZERO, .CODE, .PRINT, .ONE] =
        .ok ([{ enabled := true, line_number := 0, command := .bool true }], []) ∧
      ∀ (fuel : Nat) (m : machine),
        execute (fuel + 1) [{ enabled := true, line_number := 0, command := .bool true }] m =
          .ok (some { m with cout := m.cout ++ ["ONE"] }) :=
  print_line false [.ZERO] (by decide) (by decide) true

/-- C5, failing input. The line `LINENUMBER n CODE PRINT b` whose number `n` is 64
times ONE, the largest `size_t`: the new size `line_number + 1` of the table wraps to
0, the table is resized to no entry and the store `ret[line_number] = lin` is out of
range, so `parse` has undefined behaviour where the line should be defined.  With
`n` the 65 digits ONE ZERO ... ZERO, of binary value `2 ^ 64`, the shifts of
`read_literal` drop the leading digit and the line defined is line 0. -/
theorem C5_failing_input (strict_mode : Bool) (b : Bool) :
    parse strict_mode (.LINENUMBER :: List.replicate 64 .ONE ++ [.CODE, .PRINT, bit_token b]) =
        .error .undefined_behaviour ∧
      binary_value (List.replicate 64 .ONE) = size_t_mod - 1 ∧
      parse strict_mode
          (.LINENUMBER :: (.ONE :: List.replicate 64 .ZERO) ++ [.CODE, .PRINT, bit_token b]) =
        .ok ([{ enabled := true, line_number := 0, command := .bool b }], []) ∧
      binary_value (.ONE :: List.replicate 64 .ZERO) = size_t_mod := by
  have hv1 : binary_value (List.replicate 64 .ONE) % size_t_mod = size_t_mod - 1 := by decide
  have hv2 : binary_value (.ONE :: List.replicate 64 .ZERO) % size_t_mod = 0 := by decide
  refine ⟨?_, by decide, ?_, by decide⟩
  · have hlen : (token.LINENUMBER :: List.replicate 64 .ONE ++
        [.CODE, .PRINT, bit_token b]).length = 67 + 1 := by simp
    rw [parse, hlen, parse_fuel_line strict_mode _ _ _ (by decide) (by simp), hv1]
    have hw := vector_set_resize_wrap ([] : List line) {}
    cases b <;>
      simp [parse_body, bit_token, read_gotos, read_gotos_fuel, Except.bind, hw]
  · have hlen : (token.LINENUMBER :: (.ONE :: List.replicate 64 .ZERO) ++
        [.CODE, .PRINT, bit_token b]).length = 68 + 1 := by simp
    rw [parse, hlen, parse_fuel_line_in_range strict_mode _ _ _ (by decide) (by simp) _ _
      (by rw [hv2]; decide), hv2]
    cases b <;>
      simp [parse_body, bit_token, read_gotos, read_gotos_fuel, Except.bind, parse_fuel,
        resize]


/-! ## Parser: the recursion of `read_expression` -/

theorem read_literal_loop_length (code : List token) (ret : Nat) (tok : token) (rd rt : Bool) :
    (read_literal_loop code ret tok rd rt).2.length ≤ code.length := by
  induction code generalizing ret tok rd rt with
  | nil => simp [read_literal_loop]
  | cons t code ih =>
    rw [read_literal_loop]
    split
    · exact Nat.le_succ_of_le (ih _ _ _ _)
    · simp

theorem read_literal_length {code code2 : List token} {n : Nat}
    (h : read_literal code = .ok (n, code2)) : code2.length < code.length := by
  cases code with
  | nil => simp [read_literal, read_literal_loop] at h
  | cons t code =>
    rw [read_literal, read_literal_loop] at h
    by_cases hd : t = .ZERO ∨ t = .ONE
    · rw [if_pos hd] at h
      have hl := read_literal_loop_length code
        (if t = .ONE then ((0 <<< 1) % size_t_mod) ^^^ 1 else (0 <<< 1) % size_t_mod) t true true
      revert h hl
      generalize read_literal_loop code _ t true true = r
      obtain ⟨⟨ret, tok, rd, rt⟩, c⟩ := r
      intro h hl
      simp only at h
      split at h
      · simp at h
      · split at h
        · simp at h
        · simp only [Except.ok.injEq, Prod.mk.injEq] at h
          rw [← h.2]
          exact Nat.lt_succ_of_le hl
    · rw [if_neg hd] at h
      simp at h

theorem read_literal_fuel_free (code : List token) : read_literal code ≠ .error .out_of_fuel := by
  rw [read_literal]
  generalize read_literal_loop code 0 .ZERO false false = r
  obtain ⟨⟨ret, tok, rd, rt⟩, c⟩ := r
  simp only
  split
  · simp
  · split <;> simp

theorem read_expression_switch_congr
    (r1 r2 : List token → Bool → Except error (expr_variant × List token))
    (code : List token) (h : ∀ c q, c.length < code.length → r1 c q = r2 c q) :
    read_expression_switch r1 code = read_expression_switch r2 code := by
  cases code with
  | nil => rfl
  | cons tok rest =>
    have hr : ∀ q, r1 rest q = r2 rest q := fun q => h rest q (by simp)
    cases tok <;> simp [read_expression_switch, hr]

theorem read_expression_nand_congr
    (r1 r2 : List token → Bool → Except error (expr_variant × List token))
    (expr : expr_variant) (code : List token)
    (h : ∀ c q, c.length < code.length → r1 c q = r2 c q) :
    read_expression_nand r1 expr code = read_expression_nand r2 expr code := by
  cases code with
  | nil => rfl
  | cons tok rest =>
    have hr : ∀ q, r1 rest q = r2 rest q := fun q => h rest q (by simp)
    cases tok <;> simp [read_expression_nand, hr]

theorem read_expression_switch_length
    (r : List token → Bool → Except error (expr_variant × List token))
    (hr : ∀ c q e c2, r c q = .ok (e, c2) → c2.length < c.length)
    {code code2 : List token} {e : expr_variant}
    (h : read_expression_switch r code = .ok (e, code2)) : code2.length < code.length := by
  cases code with
  | nil => simp [read_expression_switch] at h
  | cons tok rest =>
    have key : ∀ (q : Bool) (f : expr_variant → expr_variant),
        (r rest q >>= fun x => pure (f x.1, x.2)) = .ok (e, code2) →
          code2.length < (tok :: rest).length := by
      intro q f hq
      cases hres : r rest q with
      | error err => simp [hres, bind, Except.bind] at hq
      | ok v =>
        obtain ⟨e1, c1⟩ := v
        simp only [hres, bind, Except.bind, pure, Except.pure, Except.ok.injEq,
          Prod.mk.injEq] at hq
        have := hr rest q e1 c1 hres
        rw [← hq.2]
        exact Nat.lt_succ_of_lt this
    have keylit : ∀ (c : List token) (f : Nat → expr_variant), c.length ≤ (tok :: rest).length →
        (read_literal c >>= fun x => pure (f x.1, x.2)) = .ok (e, code2) →
          code2.length < (tok :: rest).length := by
      intro c f hc hq
      cases hres : read_literal c with
      | error err => simp [hres, bind, Except.bind] at hq
      | ok v =>
        obtain ⟨n1, c1⟩ := v
        simp only [hres, bind, Except.bind, pure, Except.pure, Except.ok.injEq,
          Prod.mk.injEq] at hq
        have := read_literal_length hres
        rw [← hq.2]
        omega
    cases tok
    case ZERO => exact keylit _ _ (Nat.le_refl _) h
    case ONE => exact keylit _ _ (Nat.le_refl _) h
    case VARIABLE =>
      exact keylit rest (fun n => .ptr (.mk .VARIABLE .monostate (.size_t n))) (by simp) h
    case THEJUMPREGISTER =>
      simp only [read_expression_switch, pure, Except.pure, Except.ok.injEq,
        Prod.mk.injEq] at h
      rw [← h.2]; simp
    case THEVALUEAT => exact key false (fun x => .ptr (.mk .THE_VALUE_AT .monostate x)) h
    case THEVALUEBEYOND => exact key false (fun x => .ptr (.mk .THE_VALUE_BEYOND .monostate x)) h
    case THEADDRESSOF => exact key false (fun x => .ptr (.mk .THE_ADDRESS_OF .monostate x)) h
    case OPENPARENTHESIS =>
      have := hr rest true e code2 h
      exact Nat.lt_succ_of_lt this
    all_goals simp [read_expression_switch] at h

theorem read_expression_nand_length
    (r : List token → Bool → Except error (expr_variant × List token))
    (hr : ∀ c q e c2, r c q = .ok (e, c2) → c2.length < c.length)
    {expr e : expr_variant} {code code2 : List token}
    (h : read_expression_nand r expr code = .ok (e, code2)) : code2.length ≤ code.length := by
  cases code with
  | nil =>
    simp only [read_expression_nand, pure, Except.pure, Except.ok.injEq, Prod.mk.injEq] at h
    rw [← h.2]
  | cons tok rest =>
    by_cases ht : tok = .NAND
    · subst ht
      simp only [read_expression_nand] at h
      cases hres : r rest false with
      | error err => simp [hres, bind, Except.bind] at h
      | ok v =>
        obtain ⟨e1, c1⟩ := v
        simp only [hres, bind, Except.bind, pure, Except.pure, Except.ok.injEq,
          Prod.mk.injEq] at h
        have := hr rest false e1 c1 hres
        rw [← h.2]
        exact Nat.le_succ_of_le (Nat.le_of_lt this)
    · have : read_expression_nand r expr (tok :: rest) = .ok (expr, tok :: rest) := by
        cases tok <;> first | exact absurd rfl ht | rfl
      rw [this] at h
      simp only [Except.ok.injEq, Prod.mk.injEq] at h
      rw [← h.2]

theorem read_expression_close_length {p : Bool} {expr e : expr_variant}
    {code code2 : List token}
    (h : read_expression_close p expr code = .ok (e, code2)) : code2.length ≤ code.length := by
  cases p <;> cases code with
  | nil =>
    simp only [read_expression_close, pure, Except.pure, Except.ok.injEq, Prod.mk.injEq] at h
    rw [← h.2]
  | cons tok rest =>
    simp only [read_expression_close, pure, Except.pure] at h
    first
      | (simp only [Except.ok.injEq, Prod.mk.injEq] at h; rw [← h.2])
      | (split at h
         · simp at h
         · simp only [Except.ok.injEq, Prod.mk.injEq] at h
           rw [← h.2]; simp)

theorem read_expression_fuel_length (n : Nat) :
    ∀ (code : List token) (p : Bool) (e : expr_variant) (code2 : List token),
      read_expression_fuel n code p = .ok (e, code2) → code2.length < code.length := by
  induction n with
  | zero => intro code p e code2 h; simp [read_expression_fuel] at h
  | succ n ih =>
    intro code p e code2 h
    simp only [read_expression_fuel, bind, Except.bind] at h
    cases h1 : read_expression_switch (read_expression_fuel n) code with
    | error err => simp [h1] at h
    | ok v1 =>
      obtain ⟨e1, c1⟩ := v1
      simp only [h1] at h
      have l1 := read_expression_switch_length _ ih h1
      cases h2 : read_expression_nand (read_expression_fuel n) e1 c1 with
      | error err => simp [h2] at h
      | ok v2 =>
        obtain ⟨e2, c2⟩ := v2
        simp only [h2] at h
        have l2 := read_expression_nand_length _ ih h2
        have l3 := read_expression_close_length h
        omega

theorem read_expression_fuel_stable (k : Nat) :
    ∀ (code : List token), code.length ≤ k → ∀ (n m : Nat) (p : Bool),
      code.length < n → code.length < m →
        read_expression_fuel n code p = read_expression_fuel m code p := by
  induction k with
  | zero =>
    intro code hk n m p hn hm
    have hnil : code = [] := List.eq_nil_of_length_eq_zero (Nat.le_zero.mp hk)
    subst hnil
    obtain ⟨n, rfl⟩ : ∃ a, n = a + 1 := ⟨n - 1, by omega⟩
    obtain ⟨m, rfl⟩ : ∃ a, m = a + 1 := ⟨m - 1, by omega⟩
    simp [read_expression_fuel, read_expression_switch, bind, Except.bind]
  | succ k ih =>
    intro code hk n m p hn hm
    obtain ⟨n, rfl⟩ : ∃ a, n = a + 1 := ⟨n - 1, by omega⟩
    obtain ⟨m, rfl⟩ : ∃ a, m = a + 1 := ⟨m - 1, by omega⟩
    have hsw : read_expression_switch (read_expression_fuel n) code =
        read_expression_switch (read_expression_fuel m) code :=
      read_expression_switch_congr _ _ code
        (fun c q hc => ih c (by omega) n m q (by omega) (by omega))
    simp only [read_expression_fuel, bind, Except.bind, hsw]
    cases h1 : read_expression_switch (read_expression_fuel m) code with
    | error err => rfl
    | ok v1 =>
      obtain ⟨e1, c1⟩ := v1
      have l1 := read_expression_switch_length _ (read_expression_fuel_length m) h1
      have hnd : read_expression_nand (read_expression_fuel n) e1 c1 =
          read_expression_nand (read_expression_fuel m) e1 c1 :=
        read_expression_nand_congr _ _ e1 c1
          (fun c q hc => ih c (by omega) n m q (by omega) (by omega))
      simp only [hnd]

theorem read_expression_switch_fuel_free
    (r : List token → Bool → Except error (expr_variant × List token))
    (code : List token) (h : ∀ c q, c.length < code.length → r c q ≠ .error .out_of_fuel) :
    read_expression_switch r code ≠ .error .out_of_fuel := by
  cases code with
  | nil => simp [read_expression_switch]
  | cons tok rest =>
    have key : ∀ (q : Bool) (f : expr_variant → expr_variant),
        (r rest q >>= fun x => pure (f x.1, x.2)) ≠ .error .out_of_fuel := by
      intro q f
      have := h rest q (by simp)
      cases hres : r rest q with
      | error err =>
        rw [hres] at this
        simpa [bind, Except.bind] using this
      | ok v => simp [bind, Except.bind, pure, Except.pure]
    have keylit : ∀ (c : List token) (f : Nat → expr_variant),
        (read_literal c >>= fun x => pure (f x.1, x.2)) ≠ .error .out_of_fuel := by
      intro c f
      have := read_literal_fuel_free c
      cases hres : read_literal c with
      | error err =>
        rw [hres] at this
        simpa [bind, Except.bind] using this
      | ok v => simp [bind, Except.bind, pure, Except.pure]
    cases tok
    case ZERO => exact keylit _ (fun n => .size_t n)
    case ONE => exact keylit _ (fun n => .size_t n)
    case VARIABLE => exact keylit rest (fun n => .ptr (.mk .VARIABLE .monostate (.size_t n)))
    case THEVALUEAT => exact key false (fun x => .ptr (.mk .THE_VALUE_AT .monostate x))
    case THEVALUEBEYOND => exact key false (fun x => .ptr (.mk .THE_VALUE_BEYOND .monostate x))
    case THEADDRESSOF => exact key false (fun x => .ptr (.mk .THE_ADDRESS_OF .monostate x))
    case OPENPARENTHESIS => exact h rest true (by simp)
    all_goals simp [read_expression_switch, pure, Except.pure]

theorem read_expression_nand_fuel_free
    (r : List token → Bool → Except error (expr_variant × List token))
    (expr : expr_variant) (code : List token)
    (h : ∀ c q, c.length < code.length → r c q ≠ .error .out_of_fuel) :
    read_expression_nand r expr code ≠ .error .out_of_fuel := by
  cases code with
  | nil => simp [read_expression_nand, pure, Except.pure]
  | cons tok rest =>
    have := h rest false (by simp)
    cases hres : r rest false with
    | error err =>
      rw [hres] at this
      cases tok <;> simp [read_expression_nand, pure, Except.pure, bind, Except.bind, hres]
      simpa using this
    | ok v =>
      cases tok <;> simp [read_expression_nand, pure, Except.pure, bind, Except.bind, hres]

theorem read_expression_close_fuel_free (p : Bool) (expr : expr_variant) (code : List token) :
    read_expression_close p expr code ≠ .error .out_of_fuel := by
  cases p <;> cases code <;> simp [read_expression_close, pure, Except.pure]
  split <;> simp

/-- The recursion of `read_expression` never exceeds a depth of one more than the
number of tokens. -/
theorem read_expression_fuel_total (k : Nat) :
    ∀ (code : List token), code.length ≤ k → ∀ (n : Nat) (p : Bool), code.length < n →
      read_expression_fuel n code p ≠ .error .out_of_fuel := by
  induction k with
  | zero =>
    intro code hk n p hn
    have hnil : code = [] := List.eq_nil_of_length_eq_zero (Nat.le_zero.mp hk)
    subst hnil
    obtain ⟨n, rfl⟩ : ∃ a, n = a + 1 := ⟨n - 1, by omega⟩
    simp [read_expression_fuel, read_expression_switch, bind, Except.bind]
  | succ k ih =>
    intro code hk n p hn
    obtain ⟨n, rfl⟩ : ∃ a, n = a + 1 := ⟨n - 1, by omega⟩
    simp only [read_expression_fuel, bind, Except.bind]
    have f1 := read_expression_switch_fuel_free (read_expression_fuel n) code
      (fun c q hc => ih c (by omega) n q (by omega))
    cases h1 : read_expression_switch (read_expression_fuel n) code with
    | error err => rw [h1] at f1; simpa using f1
    | ok v1 =>
      obtain ⟨e1, c1⟩ := v1
      have l1 := read_expression_switch_length _ (read_expression_fuel_length n) h1
      have f2 := read_expression_nand_fuel_free (read_expression_fuel n) e1 c1
        (fun c q hc => ih c (by omega) n q (by omega))
      simp only
      cases h2 : read_expression_nand (read_expression_fuel n) e1 c1 with
      | error err => rw [h2] at f2; simpa using f2
      | ok v2 => exact read_expression_close_fuel_free _ _ _

theorem read_expression_fuel_free (code : List token) (p : Bool) :
    read_expression code p ≠ .error .out_of_fuel :=
  read_expression_fuel_total code.length code (Nat.le_refl _) _ p (Nat.lt_succ_self _)

theorem read_expression_length {code code2 : List token} {p : Bool} {e : expr_variant}
    (h : read_expression code p = .ok (e, code2)) : code2.length < code.length :=
  read_expression_fuel_length _ code p e code2 h

/-- The recursive equation of `read_expression`: the body of the source function,
its recursive calls being calls of `read_expression` itself. -/
theorem read_expression_eq (code : List token) (p : Bool) :
    read_expression code p =
      (read_expression_switch (fun c q => read_expression c q) code).bind fun r =>
        (read_expression_nand (fun c q => read_expression c q) r.1 r.2).bind fun s =>
          read_expression_close p s.1 s.2 := by
  have hsw : read_expression_switch (read_expression_fuel code.length) code =
      read_expression_switch (fun c q => read_expression c q) code :=
    read_expression_switch_congr _ _ code
      (fun c q hc => read_expression_fuel_stable c.length c (Nat.le_refl _) _ _ q hc
        (Nat.lt_succ_self _))
  rw [read_expression]
  simp only [read_expression_fuel, bind, hsw]
  cases h1 : read_expression_switch (fun c q => read_expression c q) code with
  | error err => rfl
  | ok v1 =>
    obtain ⟨e1, c1⟩ := v1
    have l1 := read_expression_switch_length _
      (fun c q e c2 h => read_expression_length h) h1
    have hnd : read_expression_nand (read_expression_fuel code.length) e1 c1 =
        read_expression_nand (fun c q => read_expression c q) e1 c1 :=
      read_expression_nand_congr _ _ e1 c1
        (fun c q hc => read_expression_fuel_stable c.length c (Nat.le_refl _) _ _ q
          (by omega) (Nat.lt_succ_self _))
    simp only [Except.bind, hnd]

/-! ## Parser: NAND chains -/

theorem read_expression_switch_literal
    (r : List token → Bool → Except error (expr_variant × List token))
    (ds tail : List token) (hds : is_literal ds) (htail : no_digit_ahead tail = true) :
    read_expression_switch r (ds ++ tail) =
      .ok (.size_t (binary_value ds % size_t_mod), tail) := by
  have hlit := read_literal_digits ds tail hds htail
  obtain ⟨hne, hall⟩ := hds
  cases ds with
  | nil => exact absurd rfl hne
  | cons d ds =>
    have hd : is_digit d = true := hall d (List.mem_cons_self _ _)
    have hd2 : d = .ZERO ∨ d = .ONE := by simpa [is_digit] using hd
    rw [List.cons_append] at hlit ⊢
    rcases hd2 with rfl | rfl <;>
      simp [read_expression_switch, hlit, bind, Except.bind, pure, Except.pure]

theorem closed_primary_switch {p : List token} {v : expr_variant} (hp : closed_primary p v)
    (tail : List token) (htail : no_digit_ahead tail = true) :
    read_expression_switch (fun c q => read_expression c q) (p ++ tail) = .ok (v, tail) := by
  cases hp with
  | literal _ hds => exact read_expression_switch_literal _ p tail hds htail
  | jump_register => simp [read_expression_switch, pure, Except.pure]
  | variable_literal ds hds =>
    have hlit := read_literal_digits ds tail hds htail
    simp [read_expression_switch, hlit, bind, Except.bind, pure, Except.pure]
  | parenthesised ts _ h =>
    have := h tail
    simp [read_expression_switch, this]

/-- C4 (amended). NAND is right-associative over closed primaries: if every operand
before the last is a literal, `THEJUMPREGISTER`, `VARIABLE` with a literal or an
expression between parentheses, and `read_expression` reads the value `v` from the
tokens `last` of the last operand onwards leaving `rest`, then it reads the chain
`P1 NAND ... NAND Pn NAND last` as the right-nested tree
`Nand(v1, ... Nand(vn, v))`, leaving `rest`. -/
theorem C4_nand_chain (ps : List (List token × expr_variant))
    (hps : ∀ p ∈ ps, closed_primary p.1 p.2)
    (last : List token) (v : expr_variant) (rest : List token)
    (hlast : read_expression last false = .ok (v, rest)) :
    read_expression (nand_chain_tokens (ps.map (·.1)) last) false =
      .ok (nand_chain_tree (ps.map (·.2)) v, rest) := by
  induction ps with
  | nil => simpa [nand_chain_tokens, nand_chain_tree] using hlast
  | cons p ps ih =>
    have hp : closed_primary p.1 p.2 := hps p (List.mem_cons_self _ _)
    have ih2 := ih (fun q hq => hps q (List.mem_cons_of_mem _ hq))
    have hsw := closed_primary_switch hp (.NAND :: nand_chain_tokens (ps.map (·.1)) last) rfl
    rw [read_expression_eq]
    simp only [List.map_cons, nand_chain_tokens, nand_chain_tree, hsw, Except.bind,
      read_expression_nand, ih2, bind, pure, Except.pure, read_expression_close]

theorem C4_nand_chain_witness :
    (∀ p ∈ [(([.ONE, .ZERO] : List token),
              expr_variant.size_t (binary_value [.ONE, .ZERO] % size_t_mod)),
            ([.THEJUMPREGISTER], .ptr (.mk .THE_JUMP_REGISTER .monostate .monostate))],
        closed_primary p.1 p.2) ∧
      read_expression [.VARIABLE, .ONE] false =
        .ok (.ptr (.mk .VARIABLE .monostate (.size_t 1)), []) ∧
      read_expression [.ONE, .ZERO, .NAND, .THEJUMPREGISTER, .NAND, .VARIABLE, .ONE] false =
        .ok (.ptr (.mk .NAND (.size_t 2)
          (.ptr (.mk .NAND (.ptr (.mk .THE_JUMP_REGISTER .monostate .monostate))
            (.ptr (.mk .VARIABLE .monostate (.size_t 1)))))), []) :=
  have h : ∀ p ∈ [(([.ONE, .ZERO] : List token),
              expr_variant.size_t (binary_value [.ONE, .ZERO] % size_t_mod)),
            ([.THEJUMPREGISTER], .ptr (.mk .THE_JUMP_REGISTER .monostate .monostate))],
        closed_primary p.1 p.2 := by
    intro p hp
    simp only [List.mem_cons, List.mem_singleton, List.not_mem_nil, or_false] at hp
    rcases hp with rfl | rfl
    · exact closed_primary.literal _ (by decide)
    · exact closed_primary.jump_register
  ⟨h, by decide, C4_nand_chain _ h [.VARIABLE, .ONE] _ [] (by decide)⟩

/-- C4 as stated fails: `THEVALUEAT VARIABLE ZERO` is a primary of the grammar and
reads as `ValueAt(Variable 0)`, but in `THEVALUEAT VARIABLE ZERO NAND ONE NAND ONE` the
prefix operator takes the whole chain as its operand, so the result is
`ValueAt(Nand(Variable 0, Nand(1, 1)))` and not `Nand(ValueAt(Variable 0), Nand(1, 1))`. -/
theorem C4_counterexample :
    read_expression [.THEVALUEAT, .VARIABLE, .ZERO] false =
        .ok (.ptr (.mk .THE_VALUE_AT .monostate
          (.ptr (.mk .VARIABLE .monostate (.size_t 0)))), []) ∧
      read_expression [.ONE] false = .ok (.size_t 1, []) ∧
      read_expression [.THEVALUEAT, .VARIABLE, .ZERO, .NAND, .ONE, .NAND, .ONE] false =
        .ok (.ptr (.mk .THE_VALUE_AT .monostate
          (.ptr (.mk .NAND (.ptr (.mk .VARIABLE .monostate (.size_t 0)))
            (.ptr (.mk .NAND (.size_t 1) (.size_t 1)))))), []) ∧
      read_expression [.THEVALUEAT, .VARIABLE, .ZERO, .NAND, .ONE, .NAND, .ONE] false ≠
        .ok (.ptr (.mk .NAND
          (.ptr (.mk .THE_VALUE_AT .monostate (.ptr (.mk .VARIABLE .monostate (.size_t 0)))))
          (.ptr (.mk .NAND (.size_t 1) (.size_t 1)))), []) := by
  decide


/-! ## Whole programs -/

/-- C6 as stated fails: the program text lexes, but `parse` rejects its second line,
because after `PRINT` only the tokens `ZERO` and `ONE` are accepted. -/
theorem C6_counterexample :
    (lex ("LINENUMBER ZERO CODE VARIABLE ZERO EQUALS ONE GOTO ONE " ++
        "LINENUMBER ONE CODE PRINT VARIABLE ZERO").toList).bind (parse false) =
      .error (.unexpected_token_exception "VARIABLE" "print command") := by
  decide

/-- C6 (amended). Loading the program `LINENUMBER ZERO CODE VARIABLE ZERO EQUALS ONE GOTO
ONE LINENUMBER ONE CODE PRINT VARIABLE ZERO` fails in `parse` with
`unexpected_token_exception` for `VARIABLE` in a print command, in either mode, and
nothing is executed.  With `PRINT ONE` as its second line the program loads, and
executing it binds variable 0 to memory cell 0, writes `ONE` exactly once and halts. -/
theorem C6_program (strict_mode : Bool) (fuel : Nat) (cin : List Char) :
    run strict_mode fuel
        ("LINENUMBER ZERO CODE VARIABLE ZERO EQUALS ONE GOTO ONE " ++
          "LINENUMBER ONE CODE PRINT VARIABLE ZERO").toList cin =
        .error (.unexpected_token_exception "VARIABLE" "print command") ∧
      run strict_mode (fuel + 2)
        ("LINENUMBER ZERO CODE VARIABLE ZERO EQUALS ONE GOTO ONE " ++
          "LINENUMBER ONE CODE PRINT ONE").toList cin =
        .ok (some { memory := [true], vars := [{ type := .BIT, index := 0 }],
                    jump_register := false, cin := cin, cout := ["ONE"] }) := by
  have hlex1 : lex ("LINENUMBER ZERO CODE VARIABLE ZERO EQUALS ONE GOTO ONE " ++
      "LINENUMBER ONE CODE PRINT VARIABLE ZERO").toList =
        .ok [.LINENUMBER, .ZERO, .CODE, .VARIABLE, .ZERO, .EQUALS, .ONE, .GOTO, .ONE,
          .LINENUMBER, .ONE, .CODE, .PRINT, .VARIABLE, .ZERO] := by decide
  have hparse1 : ∀ s, parse s [.LINENUMBER, .ZERO, .CODE, .VARIABLE, .ZERO, .EQUALS, .ONE,
      .GOTO, .ONE, .LINENUMBER, .ONE, .CODE, .PRINT, .VARIABLE, .ZERO] =
        .error (.unexpected_token_exception "VARIABLE" "print command") := by decide
  have hlex2 : lex ("LINENUMBER ZERO CODE VARIABLE ZERO EQUALS ONE GOTO ONE " ++
      "LINENUMBER ONE CODE PRINT ONE").toList =
        .ok [.LINENUMBER, .ZERO, .CODE, .VARIABLE, .ZERO, .EQUALS, .ONE, .GOTO, .ONE,
          .LINENUMBER, .ONE, .CODE, .PRINT, .ONE] := by decide
  have hparse2 : ∀ s, parse s [.LINENUMBER, .ZERO, .CODE, .VARIABLE, .ZERO, .EQUALS, .ONE,
      .GOTO, .ONE, .LINENUMBER, .ONE, .CODE, .PRINT, .ONE] =
        .ok ([{ enabled := true, line_number := 0,
                command := .equals_command
                  ⟨.mk .VARIABLE .monostate (.size_t 0), .size_t 1⟩,
                goto_unconditional := { enabled := true, destination := 1 } },
              { enabled := true, line_number := 1, command := .bool true }], []) := by
    decide
  constructor
  · simp only [run, hlex1, hparse1, bind, Except.bind]
  · simp only [run, hlex2, hparse2, bind, Except.bind]
    simp [execute, first_enabled, execute_loop, execute_command, execute_equals,
      get_address, get_address_of, next_line, vector_at, vector_set, resize, size_t_mod,
      expression.type, bind, Except.bind, pure, Except.pure]

/-- C7, failing input. In `GOTO ONE IFTHEJUMPREGISTERIS` followed by `LINENUMBER`, the
`switch` of `read_gotos` on the token after `IFTHEJUMPREGISTERIS` matches no case, so
the goto is stored as unconditional without the check for conditional gotos: the
program parses and its line 0 has both a goto for jump register true and an
unconditional goto. -/
theorem C7_failing_input :
    parse false [.LINENUMBER, .ZERO, .CODE, .READ,
        .GOTO, .ZERO, .IFTHEJUMPREGISTERIS, .ONE,
        .GOTO, .ONE, .IFTHEJUMPREGISTERIS,
        .LINENUMBER, .ONE, .CODE, .PRINT, .ONE] =
      .ok ([{ enabled := true, line_number := 0, command := .monostate,
              goto_unconditional := { enabled := true, destination := 1 },
              goto_true := { enabled := true, destination := 0 } },
            { enabled := true, line_number := 1, command := .bool true }], []) := by
  decide

/-! ## Parser: lines -/

theorem parse_fuel_ok_inv {strict_mode : Bool} {fuel : Nat} {tok : token}
    {code : List token} {ret : List line} {warnings : List Nat} {r : List line × List Nat}
    (h : parse_fuel strict_mode (fuel + 1) (tok :: code) ret warnings = .ok r) :
    ∃ line_number code1 lin code2 warnings1 lin2 code3,
      tok = .LINENUMBER ∧
      read_literal code = .ok (line_number, .CODE :: code1) ∧
      parse_body strict_mode code1 { enabled := true, line_number := line_number } warnings =
        .ok (lin, code2, warnings1) ∧
      read_gotos code2 lin = .ok (lin2, code3) ∧
      parse_fuel strict_mode fuel code3
        ((if line_number ≥ ret.length then resize ret (line_number + 1) {} else ret).set
          line_number lin2) warnings1 = .ok r := by
  rw [parse_fuel] at h
  by_cases ht : tok = .LINENUMBER
  · simp only [ht, ne_eq, not_true_eq_false, if_false, bind, Except.bind] at h
    cases h1 : read_literal code with
    | error e => simp [h1] at h
    | ok v1 =>
      obtain ⟨line_number, c1⟩ := v1
      simp only [h1] at h
      cases c1 with
      | nil => simp at h
      | cons t c1 =>
        simp only at h
        by_cases htc : t = .CODE
        · simp only [htc, not_true_eq_false, if_false] at h
          by_cases hc1 : c1 = []
          · simp [hc1] at h
          · simp only [hc1, if_false] at h
            cases h2 : parse_body strict_mode c1
                { enabled := true, line_number := line_number } warnings with
            | error e => simp [h2] at h
            | ok v2 =>
              obtain ⟨lin, code2, warnings1⟩ := v2
              simp only [h2] at h
              cases h3 : read_gotos code2 lin with
              | error e => simp [h3] at h
              | ok v3 =>
                obtain ⟨lin2, code3⟩ := v3
                simp only [h3] at h
                cases h4 : vector_set
                    (if line_number ≥ ret.length then
                      resize ret ((line_number + 1) % size_t_mod) {} else ret)
                    line_number lin2 with
                | error e => simp [h4] at h
                | ok ret2 =>
                  simp only [h4] at h
                  rw [(vector_set_resize_inv h4).1] at h
                  exact ⟨line_number, c1, lin, code2, warnings1, lin2, code3, ht,
                    by rw [htc], h2, h3, h⟩
        · simp [htc] at h
  · simp [ht] at h


theorem goto_slot_assign_command (slot : goto_slot) (lin : line) (d : goto_def) :
    (slot.assign lin d).command = lin.command ∧
      (slot.assign lin d).enabled = lin.enabled ∧
      (slot.assign lin d).line_number = lin.line_number := by
  cases slot <;> simp [goto_slot.assign]

theorem read_gotos_definition_ok {code : List token} {lin : line} {slot : goto_slot}
    {code3 : List token} (h : read_gotos_definition code lin = .ok (slot, code3)) :
    code3.length ≤ code.length ∧
      (slot = .goto_unconditional →
        lin.goto_true.enabled = false ∧ lin.goto_false.enabled = false ∨
        ∃ c, code = .IFTHEJUMPREGISTERIS :: c) := by
  unfold read_gotos_definition at h
  split at h
  · split at h
    · simp at h
    · simp only [pure, Except.pure, Except.ok.injEq, Prod.mk.injEq] at h
      obtain ⟨-, rfl⟩ := h
      exact ⟨by simp; omega, fun _ => Or.inr ⟨_, rfl⟩⟩
    · simp only [pure, Except.pure, Except.ok.injEq, Prod.mk.injEq] at h
      obtain ⟨-, rfl⟩ := h
      exact ⟨by simp; omega, fun _ => Or.inr ⟨_, rfl⟩⟩
    · simp only [pure, Except.pure, Except.ok.injEq, Prod.mk.injEq] at h
      obtain ⟨-, rfl⟩ := h
      exact ⟨by simp, fun _ => Or.inr ⟨_, rfl⟩⟩
  · split at h
    · simp at h
    · rename_i hne
      simp only [pure, Except.pure, Except.ok.injEq, Prod.mk.injEq] at h
      obtain ⟨-, rfl⟩ := h
      refine ⟨Nat.le_refl _, fun _ => Or.inl ?_⟩
      simpa using hne

/-- What a successful call of `read_gotos` has done: either it returned at once, on an
empty vector or in front of `LINENUMBER`, or it read one goto into a slot that was
free and then returned or called itself on a vector that starts with `GOTO`. -/
theorem read_gotos_fuel_ok_inv {n : Nat} {code : List token} {lin lin2 : line}
    {code2 : List token} (h : read_gotos_fuel (n + 1) code lin = .ok (lin2, code2)) :
    ((code = [] ∨ ∃ rest, code = .LINENUMBER :: rest) ∧ lin2 = lin ∧ code2 = code) ∨
    ∃ (rest : List token) (linenum : Nat) (code1 : List token) (slot : goto_slot)
        (code3 : List token),
      code = .GOTO :: rest ∧ read_literal rest = .ok (linenum, code1) ∧
      read_gotos_definition code1 lin = .ok (slot, code3) ∧
      lin.goto_unconditional.enabled = false ∧ (slot.deref lin).enabled = false ∧
      (((∃ c, code3 = .GOTO :: c) ∧
          read_gotos_fuel n code3 (slot.assign lin { enabled := true, destination := linenum }) =
            .ok (lin2, code2)) ∨
        ((¬ ∃ c, code3 = .GOTO :: c) ∧
          lin2 = slot.assign lin { enabled := true, destination := linenum } ∧
          code2 = code3)) := by
  cases code with
  | nil =>
    simp only [read_gotos_fuel, Except.ok.injEq, Prod.mk.injEq] at h
    exact Or.inl ⟨Or.inl rfl, h.1.symm, h.2.symm⟩
  | cons tok rest =>
    by_cases hl : tok = .LINENUMBER
    · subst hl
      simp only [read_gotos_fuel, if_true, Except.ok.injEq, Prod.mk.injEq] at h
      exact Or.inl ⟨Or.inr ⟨rest, rfl⟩, h.1.symm, h.2.symm⟩
    · right
      by_cases hg : tok = .GOTO
      · subst hg
        simp only [read_gotos_fuel, reduceCtorEq, if_false, ne_eq, not_true_eq_false] at h
        by_cases hu : lin.goto_unconditional.enabled = true
        · simp [hu] at h
        · simp only [hu, Bool.false_eq_true, if_false] at h
          by_cases hr : rest = []
          · simp [hr] at h
          · simp only [hr, if_false, bind, Except.bind] at h
            cases h1 : read_literal rest with
            | error e => simp [h1] at h
            | ok v1 =>
              obtain ⟨linenum, code1⟩ := v1
              simp only [h1] at h
              cases h2 : read_gotos_definition code1 lin with
              | error e => simp [h2] at h
              | ok d =>
                obtain ⟨slot, code3⟩ := d
                simp only [h2] at h
                by_cases hen : (slot.deref lin).enabled = true
                · simp [hen] at h
                · simp only [hen, Bool.false_eq_true, if_false] at h
                  refine ⟨rest, linenum, code1, slot, code3, rfl, h1, h2,
                    by simpa using hu, by simpa using hen, ?_⟩
                  split at h
                  · exact Or.inl ⟨⟨_, rfl⟩, h⟩
                  · rename_i hng
                    simp only [pure, Except.pure, Except.ok.injEq, Prod.mk.injEq] at h
                    refine Or.inr ⟨?_, h.1.symm, h.2.symm⟩
                    rintro ⟨c, hc⟩
                    exact hng _ hc
      · simp only [read_gotos_fuel, hl, if_false, ne_eq, hg, not_false_eq_true, if_true] at h
        split at h <;> simp at h

/-- The function `read_gotos` changes only the three goto members of the line. -/
theorem read_gotos_fuel_command (n : Nat) :
    ∀ (code : List token) (lin lin2 : line) (code2 : List token),
      read_gotos_fuel n code lin = .ok (lin2, code2) →
        lin2.command = lin.command ∧ lin2.enabled = lin.enabled ∧
          lin2.line_number = lin.line_number := by
  induction n with
  | zero => intro code lin lin2 code2 h; simp [read_gotos_fuel] at h
  | succ n ih =>
    intro code lin lin2 code2 h
    rcases read_gotos_fuel_ok_inv h with ⟨-, rfl, -⟩ | ⟨rest, linenum, code1, slot, code3, -, -,
      -, -, -, h3⟩
    · exact ⟨rfl, rfl, rfl⟩
    · have a := goto_slot_assign_command slot lin { enabled := true, destination := linenum }
      rcases h3 with ⟨-, h3⟩ | ⟨-, rfl, -⟩
      · have := ih _ _ _ _ h3
        exact ⟨this.1.trans a.1, this.2.1.trans a.2.1, this.2.2.trans a.2.2⟩
      · exact a


theorem parse_body_default (strict_mode : Bool) (code : List token) (lin : line)
    (warnings : List Nat) (hp : ∀ c, code ≠ .PRINT :: c) (hr : ∀ c, code ≠ .READ :: c)
    (hne : code ≠ []) :
    parse_body strict_mode code lin warnings = parse_equals strict_mode code lin warnings := by
  cases code with
  | nil => exact absurd rfl hne
  | cons tok rest =>
    cases tok
    case PRINT => exact absurd rfl (hp rest)
    case READ => exact absurd rfl (hr rest)
    all_goals rfl

/-- What a successful `parse_equals` has done. -/
theorem parse_equals_ok_inv {strict_mode : Bool} {code code2 : List token} {lin lin2 : line}
    {warnings warnings2 : List Nat}
    (h : parse_equals strict_mode code lin warnings = .ok (lin2, code2, warnings2)) :
    ∃ (var : expression) (code1 : List token) (val : expr_variant),
      read_expression code = .ok (.ptr var, .EQUALS :: code1) ∧ code1 ≠ [] ∧
      read_expression code1 = .ok (val, code2) ∧
      (∀ n, val = .size_t n → n ≤ 1) ∧
      lin2 = { lin with command := .equals_command ⟨var, val⟩ } ∧
      (warnings2 = warnings ∨
        (strict_mode = false ∧ warnings2 = warnings ++ [lin.line_number])) := by
  simp only [parse_equals, bind, Except.bind] at h
  cases h1 : read_expression code with
  | error e => simp [h1] at h
  | ok v1 =>
    obtain ⟨v, c1⟩ := v1
    simp only [h1] at h
    cases v with
    | monostate => simp at h
    | size_t n => simp at h
    | ptr var =>
      simp only at h
      cases c1 with
      | nil => simp at h
      | cons tok code1 =>
        simp only at h
        by_cases ht : tok = .EQUALS
        · subst ht
          simp only [ne_eq, not_true_eq_false, if_false] at h
          by_cases hc : code1 = []
          · simp [hc] at h
          · simp only [hc, if_false] at h
            cases h2 : read_expression code1 with
            | error e => simp [h2] at h
            | ok v2 =>
              obtain ⟨val, c2⟩ := v2
              simp only [h2] at h
              cases val with
              | monostate =>
                simp only [pure, Except.pure, Except.ok.injEq, Prod.mk.injEq] at h
                exact ⟨var, code1, _, rfl, hc, by rw [← h.2.1]; exact h2, by simp, h.1.symm,
                  Or.inl h.2.2.symm⟩
              | size_t n =>
                simp only at h
                by_cases hn : n > 1
                · simp [hn] at h
                · simp only [hn, if_false, pure, Except.pure, Except.ok.injEq,
                    Prod.mk.injEq] at h
                  refine ⟨var, code1, _, rfl, hc, by rw [← h.2.1]; exact h2, ?_, h.1.symm,
                    Or.inl h.2.2.symm⟩
                  intro m hm
                  simp only [expr_variant.size_t.injEq] at hm
                  omega
              | ptr e =>
                simp only at h
                by_cases he : e.type = .THE_JUMP_REGISTER
                · simp only [he, if_true] at h
                  cases strict_mode with
                  | true => simp at h
                  | false =>
                    simp only [Bool.false_eq_true, if_false, pure, Except.pure,
                      Except.ok.injEq, Prod.mk.injEq] at h
                    exact ⟨var, code1, _, rfl, hc, by rw [← h.2.1]; exact h2, by simp, h.1.symm,
                      Or.inr ⟨rfl, h.2.2.symm⟩⟩
                · simp only [he, if_false, pure, Except.pure, Except.ok.injEq,
                    Prod.mk.injEq] at h
                  exact ⟨var, code1, _, rfl, hc, by rw [← h.2.1]; exact h2, by simp, h.1.symm,
                    Or.inl h.2.2.symm⟩
        · simp [ht] at h

/-- What a successful `parse_body` has done: a print command, a read command that is
not the last token, or an equals command. -/
theorem parse_body_ok_inv {strict_mode : Bool} {code code2 : List token} {lin lin2 : line}
    {warnings warnings2 : List Nat}
    (h : parse_body strict_mode code lin warnings = .ok (lin2, code2, warnings2)) :
    (∃ b, code = .PRINT :: bit_token b :: code2 ∧ lin2 = { lin with command := .bool b } ∧
        warnings2 = warnings) ∨
    (code = .READ :: code2 ∧ code2 ≠ [] ∧ lin2 = lin ∧ warnings2 = warnings) ∨
    parse_equals strict_mode code lin warnings = .ok (lin2, code2, warnings2) := by
  cases code with
  | nil => simp [parse_body] at h
  | cons tok rest =>
    cases tok
    case PRINT =>
      left
      cases rest with
      | nil => simp [parse_body] at h
      | cons t r =>
        cases t
        case ZERO =>
          simp only [parse_body, Except.ok.injEq, Prod.mk.injEq] at h
          exact ⟨false, by rw [h.2.1]; rfl, h.1.symm, h.2.2.symm⟩
        case ONE =>
          simp only [parse_body, Except.ok.injEq, Prod.mk.injEq] at h
          exact ⟨true, by rw [h.2.1]; rfl, h.1.symm, h.2.2.symm⟩
        all_goals simp [parse_body] at h
    case READ =>
      right; left
      simp only [parse_body] at h
      by_cases hr : rest = []
      · simp [hr] at h
      · simp only [hr, if_false, Except.ok.injEq, Prod.mk.injEq] at h
        exact ⟨by rw [h.2.1], by rw [← h.2.1]; exact hr, h.1.symm, h.2.2.symm⟩
    all_goals exact Or.inr (Or.inr h)


theorem read_expression_print (c : List token) (p : Bool) :
    read_expression (.PRINT :: c) p =
      .error (.unexpected_token_exception "PRINT" "expression") := by
  rw [read_expression_eq]; rfl

theorem read_expression_read (c : List token) (p : Bool) :
    read_expression (.READ :: c) p =
      .error (.unexpected_token_exception "READ" "expression") := by
  rw [read_expression_eq]; rfl

theorem read_expression_nil (p : Bool) :
    read_expression [] p = .error (.unexpected_end_of_program_exception "expression") := by
  rw [read_expression_eq]; rfl

theorem parse_body_of_read_expression {strict_mode : Bool} {code : List token}
    {r : expr_variant × List token} (h : read_expression code = .ok r) (lin : line)
    (warnings : List Nat) :
    parse_body strict_mode code lin warnings = parse_equals strict_mode code lin warnings := by
  apply parse_body_default
  · rintro c rfl; rw [read_expression_print] at h; cases h
  · rintro c rfl; rw [read_expression_read] at h; cases h
  · rintro rfl; rw [read_expression_nil] at h; cases h

theorem read_expression_nand_none
    (r : List token → Bool → Except error (expr_variant × List token))
    (expr : expr_variant) (rest : List token) (h : ∀ c, rest ≠ .NAND :: c) :
    read_expression_nand r expr rest = .ok (expr, rest) := by
  cases rest with
  | nil => rfl
  | cons t c =>
    cases t
    case NAND => exact absurd rfl (h c)
    all_goals rfl

/-- A literal that is a whole operand reads as its binary value modulo `2 ^ 64`. -/
theorem read_expression_literal (lit rest : List token) (hlit : is_literal lit)
    (hrest : literal_operand_ends rest = true) :
    read_expression (lit ++ rest) false =
      .ok (.size_t (binary_value lit % size_t_mod), rest) := by
  have hd : no_digit_ahead rest = true := by
    cases rest with
    | nil => rfl
    | cons t c => simp only [literal_operand_ends, Bool.and_eq_true] at hrest; exact hrest.1
  have hn : ∀ c, rest ≠ .NAND :: c := by
    rintro c rfl
    simp [literal_operand_ends] at hrest
  rw [read_expression_eq, read_expression_switch_literal _ lit rest hlit hd]
  simp only [Except.bind, read_expression_nand_none _ _ rest hn, read_expression_close]
  rfl

theorem resize_mem {α : Type} {v : List α} {n : Nat} {d x : α} (h : x ∈ resize v n d) :
    x ∈ v ∨ x = d := by
  simp only [resize, List.mem_append] at h
  rcases h with h | h
  · exact Or.inl (List.mem_of_mem_take h)
  · exact Or.inr (List.eq_of_mem_replicate h)

/-- The loop of `parse` keeps every property of lines that holds of the default line
and of every line it builds. -/
theorem parse_fuel_invariant (strict_mode : Bool) (P : line → Prop) (hdefault : P {})
    (hbody : ∀ code lin_number warnings lin code2 warnings2 lin2 code3,
      parse_body strict_mode code { enabled := true, line_number := lin_number } warnings =
        .ok (lin, code2, warnings2) →
      read_gotos code2 lin = .ok (lin2, code3) → P lin2)
    (fuel : Nat) :
    ∀ (code : List token) (ret : List line) (warnings : List Nat) (r : List line × List Nat),
      parse_fuel strict_mode fuel code ret warnings = .ok r →
        (∀ l ∈ ret, P l) → ∀ l ∈ r.1, P l := by
  induction fuel with
  | zero =>
    intro code ret warnings r h hret
    cases code with
    | nil =>
      simp only [parse_fuel, Except.ok.injEq] at h
      rw [← h]; exact hret
    | cons t c => simp [parse_fuel] at h
  | succ fuel ih =>
    intro code ret warnings r h hret
    cases code with
    | nil =>
      simp only [parse_fuel, Except.ok.injEq] at h
      rw [← h]; exact hret
    | cons t c =>
      obtain ⟨line_number, code1, lin, code2, warnings1, lin2, code3, -, -, hb, hg, hrec⟩ :=
        parse_fuel_ok_inv h
      refine ih _ _ _ _ hrec ?_
      intro l hl
      rcases List.mem_or_eq_of_mem_set hl with hl | rfl
      · split at hl
        · rcases resize_mem hl with hl | rfl
          · exact hret l hl
          · exact hdefault
        · exact hret l hl
      · exact hbody _ _ _ _ _ _ _ _ hb hg

/-- The check of lines 480-481.  When the loop of `parse` reaches a line
`LINENUMBER ds CODE lhs EQUALS lit` whose left-hand side `lhs` reads as an expression
node and whose right-hand side is the bare literal `lit`, and the number that
`read_literal` returns for `lit` is at least 2, `parse` fails with
`invalid_operation_exception`.  In every table returned by `parse`, the right-hand
side of an equals command that is a literal is 0 or 1. -/
theorem equals_multi_bit_literal (strict_mode : Bool) :
    (∀ (fuel : Nat) (ds lhs lit rest : List token) (var : expression) (ret : List line)
        (warnings : List Nat),
        is_literal ds → is_literal lit → literal_operand_ends rest = true →
        read_expression (lhs ++ .EQUALS :: (lit ++ rest)) =
          .ok (.ptr var, .EQUALS :: (lit ++ rest)) →
        2 ≤ binary_value lit % size_t_mod →
        parse_fuel strict_mode (fuel + 1)
            (.LINENUMBER :: ds ++ .CODE :: (lhs ++ .EQUALS :: (lit ++ rest))) ret warnings =
          .error (.invalid_operation_exception "used multi-bit literal in EQUALS command")) ∧
      (∀ (code : List token) (table : List line) (warnings : List Nat),
        parse strict_mode code = .ok (table, warnings) →
        ∀ lin ∈ table, ∀ (var : expression) (n : Nat),
          lin.command = .equals_command ⟨var, .size_t n⟩ → n ≤ 1) := by
  constructor
  · intro fuel ds lhs lit rest var ret warnings hds hlit hrest hlhs hval
    have hne : lhs ++ .EQUALS :: (lit ++ rest) ≠ [] := by simp
    have hlne : lit ++ rest ≠ [] := by
      intro h
      exact hlit.1 (List.append_eq_nil.mp h).1
    rw [parse_fuel_line strict_mode fuel ds _ hds hne, parse_body_of_read_expression hlhs]
    simp only [parse_equals, hlhs, bind, Except.bind, ne_eq, not_true_eq_false, if_false,
      hlne, read_expression_literal lit rest hlit hrest]
    rw [if_pos (by omega)]
  · intro code table warnings h
    have := parse_fuel_invariant strict_mode
      (fun l => ∀ (var : expression) (n : Nat),
        l.command = .equals_command ⟨var, .size_t n⟩ → n ≤ 1)
      (by intro var n hc; cases hc)
      (by
        intro code lin_number warnings lin code2 warnings2 lin2 code3 hb hg var n hc
        have hcmd := (read_gotos_fuel_command _ _ _ _ _ hg).1
        rw [hcmd] at hc
        rcases parse_body_ok_inv hb with ⟨b, -, rfl, -⟩ | ⟨-, -, rfl, -⟩ | he
        · cases hc
        · cases hc
        · obtain ⟨var2, code1, val, -, -, -, hv, rfl, -⟩ := parse_equals_ok_inv he
          simp only [command_variant.equals_command.injEq, equals_command.mk.injEq] at hc
          exact hv n hc.2)
      code.length code [] [] (table, warnings) h (by simp)
    exact this


theorem equals_multi_bit_literal_example :
    (is_literal [.ZERO] ∧ is_literal [.ONE, .ONE] ∧ literal_operand_ends [.GOTO, .ONE] = true ∧
      read_expression ([.VARIABLE, .ONE] ++ .EQUALS :: ([.ONE, .ONE] ++ [.GOTO, .ONE])) =
        .ok (.ptr (.mk .VARIABLE .monostate (.size_t 1)),
          .EQUALS :: ([.ONE, .ONE] ++ [.GOTO, .ONE])) ∧
      2 ≤ binary_value [.ONE, .ONE] % size_t_mod ∧
      parse_fuel false (11 + 1)
          (.LINENUMBER :: [.ZERO] ++ .CODE ::
            ([.VARIABLE, .ONE] ++ .EQUALS :: ([.ONE, .ONE] ++ [.GOTO, .ONE]))) [] [] =
        .error (.invalid_operation_exception "used multi-bit literal in EQUALS command")) ∧
    (parse false [.LINENUMBER, .ZERO, .CODE, .VARIABLE, .ZERO, .EQUALS, .ONE] =
        .ok ([{ enabled := true, line_number := 0,
                command := .equals_command
                  ⟨.mk .VARIABLE .monostate (.size_t 0), .size_t 1⟩ }], []) ∧
      ∀ lin ∈ [({ enabled := true, line_number := 0,
                  command := .equals_command
                    ⟨.mk .VARIABLE .monostate (.size_t 0), .size_t 1⟩ } : line)],
        ∀ (var : expression) (n : Nat),
          lin.command = .equals_command ⟨var, .size_t n⟩ → n ≤ 1) :=
  ⟨⟨by decide, by decide, by decide, by decide, by decide,
      (equals_multi_bit_literal false).1 11 [.ZERO] [.VARIABLE, .ONE] [.ONE, .ONE] [.GOTO, .ONE]
        (.mk .VARIABLE .monostate (.size_t 1)) [] []
        (by decide) (by decide) (by decide) (by decide) (by decide)⟩,
    ⟨by decide,
      (equals_multi_bit_literal false).2 [.LINENUMBER, .ZERO, .CODE, .VARIABLE, .ZERO, .EQUALS, .ONE]
        _ [] (by decide)⟩⟩


/-- C8, failing input. The right-hand literal `ONE` followed by sixty-four `ZERO` has
binary value `2 ^ 64`.  The shift `ret <<= 1` of `read_literal` overflows unchecked and
drops the leading digit, so the literal is read as 0, the check for a multi-bit
literal (lines 480-481) does not fire, and the line is accepted with the literal 0 as
its right-hand side.  The same line with the literal `ONE ZERO` is rejected. -/
theorem C8_failing_input (strict_mode : Bool) :
    2 ≤ binary_value (token.ONE :: List.replicate 64 token.ZERO) ∧
      parse strict_mode (token.LINENUMBER :: [token.ZERO] ++ token.CODE ::
          ([token.VARIABLE, token.ZERO] ++ token.EQUALS :: (token.ONE :: List.replicate 64 token.ZERO ++ []))) =
        .ok ([{ enabled := true, line_number := 0,
                command := .equals_command
                  ⟨.mk .VARIABLE .monostate (.size_t 0), .size_t 0⟩ }], []) ∧
      parse strict_mode [.LINENUMBER, .ZERO, .CODE, .VARIABLE, .ZERO, .EQUALS, .ONE, .ZERO] =
        .error (.invalid_operation_exception "used multi-bit literal in EQUALS command") := by
  refine ⟨by decide, ?_, by cases strict_mode <;> decide⟩
  have hlhs : read_expression
      ([token.VARIABLE, token.ZERO] ++ token.EQUALS :: (token.ONE :: List.replicate 64 token.ZERO ++ [])) =
        .ok (.ptr (.mk .VARIABLE .monostate (.size_t 0)),
          token.EQUALS :: (token.ONE :: List.replicate 64 token.ZERO ++ [])) := by decide
  have hrhs := read_expression_literal (token.ONE :: List.replicate 64 token.ZERO) []
    (by decide) (by decide)
  have hval : binary_value (token.ONE :: List.replicate 64 token.ZERO) % size_t_mod = 0 := by decide
  rw [hval] at hrhs
  have hlen : (token.LINENUMBER :: [token.ZERO] ++ token.CODE ::
      ([token.VARIABLE, token.ZERO] ++ token.EQUALS :: (token.ONE :: List.replicate 64 token.ZERO ++ []))).length =
        70 + 1 := by decide
  rw [parse, hlen, parse_fuel_line strict_mode 70 [token.ZERO] _ (by decide) (by simp),
    parse_body_of_read_expression hlhs]
  simp only [parse_equals, hlhs, hrhs, bind, Except.bind, pure, Except.pure]
  simp [read_gotos, read_gotos_fuel, Except.bind, parse_fuel, resize, vector_set, size_t_mod,
    binary_value, binary_value_from]


/-! ## Evaluator -/

theorem vector_at_of_getElem? {α : Type} {v : List α} {i : Nat} {x : α}
    (h : v[i]? = some x) : vector_at v i = .ok x := by
  simp [vector_at, h]

theorem vector_set_of_getElem? {α : Type} {v : List α} {i : Nat} {x : α} (y : α)
    (h : v[i]? = some x) : vector_set v i y = .ok (v.set i y) := by
  have hlt : i < v.length := by
    rcases Nat.lt_or_ge i v.length with h1 | h1
    · exact h1
    · rw [List.getElem?_eq_none h1] at h; cases h
  simp [vector_set, hlt]

theorem getElem?_resize {α : Type} (v : List α) (n : Nat) (d : α) (i : Nat) :
    (resize v n d)[i]? = if i < n then some (v.getD i d) else none := by
  unfold resize
  by_cases hi : i < n
  · rw [if_pos hi]
    by_cases hv : i < v.length
    · rw [List.getElem?_append_left (by simp; omega), List.getElem?_take_of_lt hi]
      simp [List.getD_eq_getElem?_getD, List.getElem?_eq_getElem hv]
    · rw [List.getElem?_append_right (by simp; omega)]
      have : (List.take n v).length = v.length := by simp; omega
      rw [this, List.getElem?_replicate, if_pos (by omega)]
      simp [List.getD_eq_getElem?_getD, List.getElem?_eq_none (Nat.le_of_not_lt hv)]
  · rw [if_neg hi]
    apply List.getElem?_eq_none
    simp
    omega

/-- Address resolution of a variable that is already bound to a cell. -/
theorem get_address_variable_bit {m : machine} {i idx : Nat}
    (h : m.vars[i]? = some { type := .BIT, index := idx }) :
    get_address (variable_expr i) m = .ok (idx, m) := by
  have hlt : i < m.vars.length := by
    rcases Nat.lt_or_ge i m.vars.length with h1 | h1
    · exact h1
    · rw [List.getElem?_eq_none h1] at h; cases h
  simp [get_address, get_address_of, variable_expr, Nat.not_le.mpr hlt,
    vector_at_of_getElem? h, bind, Except.bind, pure, Except.pure]

/-- Value resolution of a variable that holds an address. -/
theorem get_val_variable_address {m : machine} {i idx : Nat}
    (h : m.vars[i]? = some { type := .ADDRESS_OF_A_BIT, index := idx }) :
    get_val (variable_expr i) m = .ok (.size_t idx, m) := by
  simp [get_val, variable_expr, vector_at_of_getElem? h, bind, Except.bind, pure, Except.pure]

/-- Value resolution of a variable that is bound to a cell inside the memory. -/
theorem get_val_variable_bit {m : machine} {i idx : Nat} {b : Bool}
    (h : m.vars[i]? = some { type := .BIT, index := idx }) (hm : m.memory[idx]? = some b) :
    get_val (variable_expr i) m = .ok (.bool b, m) := by
  simp [get_val, variable_expr, vector_at_of_getElem? h, vector_at_of_getElem? hm,
    bind, Except.bind, pure, Except.pure]

theorem get_address_the_value_at {m m2 : machine} {e : expression} {n : Nat}
    (h : get_val e m = .ok (.size_t n, m2)) :
    get_address (the_value_at e) m = .ok (n, m2) := by
  simp [get_address, get_address_of, the_value_at, h, bind, Except.bind, pure, Except.pure]

theorem get_val_the_value_at {m m2 : machine} {e : expression} {n : Nat} {b : Bool}
    (h : get_val e m = .ok (.size_t n, m2)) (hm : m2.memory[n]? = some b) :
    get_val (the_value_at e) m = .ok (.bool b, m2) := by
  simp [get_val, get_address_of, the_value_at, h, vector_at_of_getElem? hm,
    bind, Except.bind, pure, Except.pure]

theorem get_val_the_address_of {m m2 : machine} {e : expression} {n : Nat}
    (h : get_address e m = .ok (n, m2)) :
    get_val (the_address_of e) m = .ok (.size_t n, m2) := by
  simp [get_val, the_address_of, h, bind, Except.bind, pure, Except.pure]

/-- An equals command with a literal bit on the right and a left-hand side other than
the jump register writes the bit to the cell at the address of the left-hand side,
growing the memory when the address is beyond its end; the address is below
`2 ^ 64 - 1`, so that the new size of the memory does not wrap. -/
theorem execute_equals_bit {m m2 : machine} {e : expression} {idx : Nat} (v : Bool)
    (hty : e.type ≠ .THE_JUMP_REGISTER) (h : get_address e m = .ok (idx, m2))
    (hidx : idx + 1 < size_t_mod) :
    execute_equals ⟨e, bit_literal v⟩ m =
      .ok { m2 with memory :=
        (if idx ≥ m2.memory.length then resize m2.memory (idx + 1) false
          else m2.memory).set idx v } := by
  have hs := vector_set_resize m2.memory idx false v hidx
  cases v <;>
    simp [execute_equals, bit_literal, hty, h, bind, Except.bind, pure, Except.pure] <;>
    simp only [ge_iff_le] at hs <;>
    rw [hs]

/-- An equals command whose right-hand side evaluates to an address stores it in the
variable on the left, unless that variable is bound to a cell. -/
theorem execute_equals_address {m m2 : machine} {i a : Nat} {e : expression} {x : variable_t}
    (h : get_val e m = .ok (.size_t a, m2)) (hi : i + 1 < size_t_mod)
    (hx : (if i ≥ m2.vars.length then resize m2.vars (i + 1) {} else m2.vars)[i]? = some x)
    (hxt : x.type ≠ .BIT) :
    execute_equals ⟨variable_expr i, .ptr e⟩ m =
      .ok { m2 with vars :=
        (if i ≥ m2.vars.length then resize m2.vars (i + 1) {} else m2.vars).set i ⟨.ADDRESS_OF_A_BIT, a⟩ } := by
  simp only [ge_iff_le] at hx
  simp [execute_equals, variable_expr, expression.type, expression.rvalue, h,
    Nat.mod_eq_of_lt hi, vector_at_of_getElem? hx, vector_set_of_getElem? _ hx, hxt, bind,
    Except.bind, pure, Except.pure]

/-- Address resolution of a variable beyond the end of the table: the table grows and
the variable is bound to the cell one past the end of the memory, which does not grow. -/
theorem get_address_variable_fresh {m : machine} {i : Nat} (h : i ≥ m.vars.length)
    (hi : i + 1 < size_t_mod) :
    get_address (variable_expr i) m =
      .ok (m.memory.length,
        { m with vars := (resize m.vars (i + 1) {}).set i ⟨.BIT, m.memory.length⟩ }) := by
  have hlen : i < (resize m.vars (i + 1) ({} : variable_t)).length := by
    rw [length_resize]; exact Nat.lt_succ_self _
  have hget : ((resize m.vars (i + 1) {}).set i
      ({ type := .BIT, index := m.memory.length } : variable_t))[i]? =
        some { type := .BIT, index := m.memory.length } := by
    rw [List.getElem?_set_eq_of_lt _ hlen]
  have hset : vector_set (resize m.vars (i + 1) {}) i
      ({ type := .BIT, index := m.memory.length } : variable_t) =
        .ok ((resize m.vars (i + 1) {}).set i ⟨.BIT, m.memory.length⟩) := by
    simp [vector_set, hlen]
  simp [get_address, get_address_of, variable_expr, h, Nat.mod_eq_of_lt hi, hset,
    vector_at_of_getElem? hget, bind, Except.bind, pure, Except.pure]

/-- Address resolution of the variable whose number is the largest `size_t`, beyond
the end of the table: `index + 1` wraps to 0, the table is resized to no entry and
the store `variables[index].type = BIT` is out of range. -/
theorem get_address_variable_wrap {m : machine} (h : size_t_mod - 1 ≥ m.vars.length) :
    get_address (variable_expr (size_t_mod - 1)) m = .error .undefined_behaviour := by
  have hw := vector_set_resize_wrap m.vars ({} : variable_t)
  simp [get_address, get_address_of, variable_expr, h, hw, bind, Except.bind]


/-- The variable table after `VARIABLE b EQUALS THEADDRESSOF VARIABLE a` has run on an
empty table. -/
theorem alias_table (a b : Nat) (hab : a ≠ b) :
    ∃ vars : List variable_t,
      (if b ≥ ((resize [] (a + 1) {}).set a ({ type := .BIT, index := 0 } : variable_t)).length
        then resize ((resize [] (a + 1) {}).set a ({ type := .BIT, index := 0 } : variable_t))
          (b + 1) {}
        else (resize [] (a + 1) {}).set a ({ type := .BIT, index := 0 } : variable_t)) = vars ∧
      vars[a]? = some ({ type := .BIT, index := 0 } : variable_t) ∧
      vars[b]? = some ({} : variable_t) ∧ b < vars.length := by
  refine ⟨_, rfl, ?_⟩
  rw [resize_nil_set]
  have hlen : (List.replicate a ({} : variable_t) ++ [({ type := .BIT, index := 0 } : variable_t)]).length =
      a + 1 := by simp
  have ha : (List.replicate a ({} : variable_t) ++ [({ type := .BIT, index := 0 } : variable_t)])[a]? =
      some ({ type := .BIT, index := 0 } : variable_t) := by
    rw [List.getElem?_append_right (by simp)]
    simp
  rw [hlen]
  by_cases hb : b ≥ a + 1
  · rw [if_pos hb]
    refine ⟨?_, ?_, ?_⟩
    · rw [getElem?_resize, if_pos (by omega), List.getD_eq_getElem?_getD, ha]
      rfl
    · rw [getElem?_resize, if_pos (by omega), List.getD_eq_getElem?_getD,
        List.getElem?_eq_none (by rw [hlen]; omega)]
      rfl
    · rw [length_resize]; omega
  · rw [if_neg hb]
    refine ⟨ha, ?_, by rw [hlen]; omega⟩
    rw [List.getElem?_append_left (by simp; omega), List.getElem?_replicate,
      if_pos (by omega)]

/-- Alias property: for distinct variable numbers `a` and `b` below `2 ^ 64 - 1` and
every bit `v`, from a machine with empty memory and empty variable table,
`VARIABLE b EQUALS THEADDRESSOF VARIABLE a` runs without error to a state `m1`; from `m1`
both `THEVALUEAT VARIABLE b EQUALS v` and `VARIABLE a EQUALS v` run without error to the
state that differs from `m1` in its memory being the single cell `v`, and there both
`VARIABLE a` and `THEVALUEAT VARIABLE b` evaluate to the bit `v`. -/
theorem alias_in_range (a b : Nat) (hab : a ≠ b) (ha : a + 1 < size_t_mod)
    (hb : b + 1 < size_t_mod) (v jr : Bool) (cin : List Char) (cout : List String) :
    ∃ m1 : machine,
      execute_equals ⟨variable_expr b, .ptr (the_address_of (variable_expr a))⟩
          { memory := [], vars := [], jump_register := jr, cin := cin, cout := cout } =
        .ok m1 ∧
      execute_equals ⟨the_value_at (variable_expr b), bit_literal v⟩ m1 =
        .ok { m1 with memory := [v] } ∧
      get_val (variable_expr a) { m1 with memory := [v] } =
        .ok (.bool v, { m1 with memory := [v] }) ∧
      execute_equals ⟨variable_expr a, bit_literal v⟩ m1 = .ok { m1 with memory := [v] } ∧
      get_val (the_value_at (variable_expr b)) { m1 with memory := [v] } =
        .ok (.bool v, { m1 with memory := [v] }) := by
  obtain ⟨vars, hvars, hva, hvb, hlen⟩ := alias_table a b hab
  have h0 := get_address_variable_fresh
    (m := { memory := [], vars := [], jump_register := jr, cin := cin, cout := cout })
    (i := a) (Nat.zero_le _) ha
  have hv := get_val_the_address_of h0
  simp only [List.length_nil] at hv
  have h1 := execute_equals_address (i := b) hv hb (x := {}) (by rw [hvars]; exact hvb)
    (by decide)
  simp only [hvars] at h1
  refine ⟨_, h1, ?_⟩
  have ga : (vars.set b ({ type := .ADDRESS_OF_A_BIT, index := 0 } : variable_t))[a]? =
      some { type := .BIT, index := 0 } := by
    rw [List.getElem?_set_ne (Ne.symm hab)]; exact hva
  have gb : (vars.set b ({ type := .ADDRESS_OF_A_BIT, index := 0 } : variable_t))[b]? =
      some { type := .ADDRESS_OF_A_BIT, index := 0 } := by
    rw [List.getElem?_set_eq_of_lt _ hlen]
  have hmem : (if 0 ≥ ([] : List Bool).length then resize [] (0 + 1) false else []).set 0 v =
      [v] := by simp [resize]
  refine ⟨?_, ?_, ?_, ?_⟩
  · have := execute_equals_bit v (e := the_value_at (variable_expr b))
      (by simp [the_value_at, expression.type])
      (get_address_the_value_at (get_val_variable_address
        (m := { memory := [], vars := vars.set b { type := .ADDRESS_OF_A_BIT, index := 0 },
                jump_register := jr, cin := cin, cout := cout }) gb)) (by decide)
    simpa [hmem] using this
  · exact get_val_variable_bit ga rfl
  · have := execute_equals_bit v (e := variable_expr a)
      (by simp [variable_expr, expression.type])
      (get_address_variable_bit
        (m := { memory := [], vars := vars.set b { type := .ADDRESS_OF_A_BIT, index := 0 },
                jump_register := jr, cin := cin, cout := cout }) ga) (by decide)
    simpa [hmem] using this
  · exact get_val_the_value_at (get_val_variable_address gb) rfl

theorem alias_in_range_example :
    (0 : Nat) ≠ 1 ∧
    ∃ m1 : machine,
      execute_equals ⟨variable_expr 1, .ptr (the_address_of (variable_expr 0))⟩
          { memory := [], vars := [], jump_register := false, cin := [], cout := [] } =
        .ok m1 ∧
      execute_equals ⟨the_value_at (variable_expr 1), bit_literal true⟩ m1 =
        .ok { m1 with memory := [true] } ∧
      get_val (variable_expr 0) { m1 with memory := [true] } =
        .ok (.bool true, { m1 with memory := [true] }) ∧
      execute_equals ⟨variable_expr 0, bit_literal true⟩ m1 =
        .ok { m1 with memory := [true] } ∧
      get_val (the_value_at (variable_expr 1)) { m1 with memory := [true] } =
        .ok (.bool true, { m1 with memory := [true] }) :=
  ⟨by decide, alias_in_range 0 1 (by decide) (by decide) (by decide) true false [] []⟩


/-- An equals command with a literal bit on the right fails on a variable that holds an
address. -/
theorem execute_equals_bit_on_address {m : machine} {n idx : Nat} (v : Bool)
    (h : m.vars[n]? = some { type := .ADDRESS_OF_A_BIT, index := idx }) :
    execute_equals ⟨variable_expr n, bit_literal v⟩ m =
      .error (.invalid_operation_exception
        "tried to take the address of an address variable") := by
  have hlt : n < m.vars.length := by
    rcases Nat.lt_or_ge n m.vars.length with h1 | h1
    · exact h1
    · rw [List.getElem?_eq_none h1] at h; cases h
  cases v <;>
    simp [execute_equals, bit_literal, variable_expr, expression.type, get_address,
      get_address_of, Nat.not_le.mpr hlt, vector_at_of_getElem? h, bind, Except.bind,
      pure, Except.pure]

/-- An equals command whose right-hand side evaluates to an address fails on a
variable that is bound to a cell. -/
theorem execute_equals_address_on_bit {m m2 : machine} {n idx a : Nat} {e : expression}
    (hv : get_val e m = .ok (.size_t a, m2))
    (h : m2.vars[n]? = some { type := .BIT, index := idx }) :
    execute_equals ⟨variable_expr n, .ptr e⟩ m =
      .error (.invalid_operation_exception
        "tried to place an address in a bit variable") := by
  have hlt : n < m2.vars.length := by
    rcases Nat.lt_or_ge n m2.vars.length with h1 | h1
    · exact h1
    · rw [List.getElem?_eq_none h1] at h; cases h
  simp [execute_equals, variable_expr, expression.type, expression.rvalue, hv,
    Nat.not_le.mpr hlt, vector_at_of_getElem? h, bind, Except.bind, pure, Except.pure]

set_option maxRecDepth 100000 in
/-- C10, failing input. Line 0 binds variable 1 and thereby creates the table entry of
variable 0 with kind EMPTY; line 1 runs `VARIABLE ZERO EQUALS ONE`, for which
`get_address` returns the index 0 of the EMPTY entry without binding it; line 2 then
assigns an address to variable 0 and succeeds.  The run halts with variable 0 of kind
address, and the bit written by line 1 went to the cell of variable 1. -/
theorem C10_failing_input :
    run false 3
        ("LINENUMBER ZERO CODE VARIABLE ONE EQUALS ZERO GOTO ONE " ++
          "LINENUMBER ONE CODE VARIABLE ZERO EQUALS ONE GOTO ONE ZERO " ++
          "LINENUMBER ONE ZERO CODE VARIABLE ZERO EQUALS THEADDRESSOF VARIABLE ONE").toList
        [] =
      .ok (some { memory := [true],
                  vars := [{ type := .ADDRESS_OF_A_BIT, index := 0 },
                           { type := .BIT, index := 0 }],
                  jump_register := false, cin := [], cout := [] }) := by
  decide


/-! ## Parser: the fuel is sufficient -/

theorem read_gotos_definition_fuel_free (code : List token) (lin : line) :
    read_gotos_definition code lin ≠ .error .out_of_fuel := by
  unfold read_gotos_definition
  split
  · split <;> simp [pure, Except.pure]
  · split <;> simp [pure, Except.pure]

/-- The recursion of `read_gotos` never exceeds a depth of one more than the number of
tokens. -/
theorem read_gotos_fuel_total (n : Nat) :
    ∀ (code : List token) (lin : line), code.length < n →
      read_gotos_fuel n code lin ≠ .error .out_of_fuel := by
  induction n with
  | zero => intro code lin h; omega
  | succ n ih =>
    intro code lin hlen
    cases code with
    | nil => simp [read_gotos_fuel]
    | cons tok rest =>
      simp only [read_gotos_fuel]
      split
      · simp
      · split
        · simp
        · split
          · simp
          · split
            · simp
            · simp only [bind, Except.bind]
              cases h1 : read_literal rest with
              | error e =>
                have := read_literal_fuel_free rest
                rw [h1] at this
                simpa using this
              | ok v1 =>
                obtain ⟨linenum, code1⟩ := v1
                have l1 := read_literal_length h1
                simp only
                cases h2 : read_gotos_definition code1 lin with
                | error e =>
                  have := read_gotos_definition_fuel_free code1 lin
                  rw [h2] at this
                  simpa using this
                | ok d =>
                  obtain ⟨slot, code3⟩ := d
                  have l2 := (read_gotos_definition_ok h2).1
                  simp only
                  split
                  · simp
                  · split
                    · apply ih
                      simp only [List.length_cons] at hlen
                      omega
                    · simp [pure, Except.pure]

theorem read_gotos_fuel_free (code : List token) (lin : line) :
    read_gotos code lin ≠ .error .out_of_fuel :=
  read_gotos_fuel_total _ code lin (Nat.lt_succ_self _)

theorem read_gotos_fuel_length (n : Nat) :
    ∀ (code : List token) (lin lin2 : line) (code2 : List token),
      read_gotos_fuel n code lin = .ok (lin2, code2) → code2.length ≤ code.length := by
  induction n with
  | zero => intro code lin lin2 code2 h; simp [read_gotos_fuel] at h
  | succ n ih =>
    intro code lin lin2 code2 h
    rcases read_gotos_fuel_ok_inv h with ⟨-, -, rfl⟩ | ⟨rest, linenum, code1, slot, code3, rfl,
      h1, h2, -, -, h3⟩
    · exact Nat.le_refl _
    · have l1 := read_literal_length h1
      have l2 := (read_gotos_definition_ok h2).1
      simp only [List.length_cons]
      rcases h3 with ⟨-, h3⟩ | ⟨-, -, rfl⟩
      · have := ih _ _ _ _ h3
        omega
      · omega

theorem parse_equals_fuel_free (strict_mode : Bool) (code : List token) (lin : line)
    (warnings : List Nat) :
    parse_equals strict_mode code lin warnings ≠ .error .out_of_fuel := by
  simp only [parse_equals, bind, Except.bind]
  cases h1 : read_expression code with
  | error e =>
    have := read_expression_fuel_free code false
    rw [show read_expression code false = read_expression code from rfl, h1] at this
    simpa using this
  | ok v1 =>
    obtain ⟨v, c1⟩ := v1
    cases v with
    | monostate => simp
    | size_t n => simp
    | ptr var =>
      simp only
      cases c1 with
      | nil => simp
      | cons tok code1 =>
        simp only
        split
        · simp
        · split
          · simp
          · cases h2 : read_expression code1 with
            | error e =>
              have := read_expression_fuel_free code1 false
              rw [show read_expression code1 false = read_expression code1 from rfl, h2] at this
              simpa using this
            | ok v2 =>
              obtain ⟨val, c2⟩ := v2
              cases val with
              | monostate => simp [pure, Except.pure]
              | size_t n => simp only; split <;> simp [pure, Except.pure]
              | ptr e =>
                simp only
                split
                · split <;> simp [pure, Except.pure]
                · simp [pure, Except.pure]

theorem parse_body_fuel_free (strict_mode : Bool) (code : List token) (lin : line)
    (warnings : List Nat) :
    parse_body strict_mode code lin warnings ≠ .error .out_of_fuel := by
  cases code with
  | nil => simp [parse_body]
  | cons tok rest =>
    cases tok
    case PRINT =>
      cases rest with
      | nil => simp [parse_body]
      | cons t r => cases t <;> simp [parse_body]
    case READ =>
      simp only [parse_body]
      split <;> simp
    all_goals exact parse_equals_fuel_free _ _ _ _

theorem parse_body_length {strict_mode : Bool} {code code2 : List token} {lin lin2 : line}
    {warnings warnings2 : List Nat}
    (h : parse_body strict_mode code lin warnings = .ok (lin2, code2, warnings2)) :
    code2.length < code.length := by
  rcases parse_body_ok_inv h with ⟨b, rfl, -, -⟩ | ⟨rfl, -, -, -⟩ | he
  · simp only [List.length_cons]; omega
  · simp
  · obtain ⟨var, code1, val, h1, -, h2, -, -, -⟩ := parse_equals_ok_inv he
    have l1 := read_expression_length h1
    have l2 := read_expression_length h2
    simp only [List.length_cons] at l1
    omega

/-- The loop of `parse` never runs more iterations than there are tokens. -/
theorem parse_fuel_total (strict_mode : Bool) (n : Nat) :
    ∀ (code : List token) (ret : List line) (warnings : List Nat), code.length ≤ n →
      parse_fuel strict_mode n code ret warnings ≠ .error .out_of_fuel := by
  induction n with
  | zero =>
    intro code ret warnings h
    have : code = [] := List.eq_nil_of_length_eq_zero (Nat.le_zero.mp h)
    subst this
    simp [parse_fuel]
  | succ n ih =>
    intro code ret warnings hlen
    cases code with
    | nil => simp [parse_fuel]
    | cons tok code =>
      simp only [parse_fuel]
      split
      · simp
      · simp only [bind, Except.bind]
        cases h1 : read_literal code with
        | error e =>
          have := read_literal_fuel_free code
          rw [h1] at this
          simpa using this
        | ok v1 =>
          obtain ⟨line_number, c1⟩ := v1
          have l1 := read_literal_length h1
          cases c1 with
          | nil => simp
          | cons t c1 =>
            simp only
            split
            · simp
            · split
              · simp
              · cases h2 : parse_body strict_mode c1
                    { enabled := true, line_number := line_number } warnings with
                | error e =>
                  have := parse_body_fuel_free strict_mode c1
                    { enabled := true, line_number := line_number } warnings
                  rw [h2] at this
                  simpa using this
                | ok v2 =>
                  obtain ⟨lin, code2, warnings1⟩ := v2
                  have l2 := parse_body_length h2
                  simp only
                  cases h3 : read_gotos code2 lin with
                  | error e =>
                    have := read_gotos_fuel_free code2 lin
                    rw [h3] at this
                    simpa using this
                  | ok v3 =>
                    obtain ⟨lin2, code3⟩ := v3
                    have l3 := read_gotos_fuel_length _ _ _ _ _ h3
                    simp only
                    cases h4 : vector_set
                        (if line_number ≥ ret.length then
                          resize ret ((line_number + 1) % size_t_mod) {} else ret)
                        line_number lin2 with
                    | error e =>
                      rw [vector_set_error h4]
                      simp
                    | ok ret2 =>
                      simp only
                      apply ih
                      simp only [List.length_cons] at hlen l1
                      omega

/-- The function `parse` always returns a table or throws one of the exceptions of
the program: the bound on the iterations of its loop is never reached. -/
theorem parse_fuel_free (strict_mode : Bool) (code : List token) :
    parse strict_mode code ≠ .error .out_of_fuel :=
  parse_fuel_total strict_mode _ code [] [] (Nat.le_refl _)


/-! ## Parser: the lines used in the evaluator properties -/

theorem literal_operand_ends_no_nand {rest : List token}
    (h : literal_operand_ends rest = true) : ∀ c, rest ≠ .NAND :: c := by
  rintro c rfl
  simp [literal_operand_ends] at h

theorem literal_operand_ends_no_digit {rest : List token}
    (h : literal_operand_ends rest = true) : no_digit_ahead rest = true := by
  cases rest with
  | nil => rfl
  | cons t c => simp only [literal_operand_ends, Bool.and_eq_true] at h; exact h.1

/-- The tokens `VARIABLE <literal>` as a whole operand read as the variable node. -/
theorem read_expression_variable (ds rest : List token) (hds : is_literal ds)
    (hrest : literal_operand_ends rest = true) :
    read_expression (.VARIABLE :: ds ++ rest) false =
      .ok (.ptr (variable_expr (binary_value ds % size_t_mod)), rest) := by
  have hlit := read_literal_digits ds rest hds (literal_operand_ends_no_digit hrest)
  rw [read_expression_eq, List.cons_append]
  simp only [read_expression_switch, hlit, bind, Except.bind, pure, Except.pure,
    read_expression_nand_none _ _ rest (literal_operand_ends_no_nand hrest),
    read_expression_close, variable_expr]

/-- The tokens `THEVALUEAT` in front of an operand that reads as the node `e`. -/
theorem read_expression_the_value_at {code rest : List token} {e : expression}
    (h : read_expression code false = .ok (.ptr e, rest)) (hn : ∀ c, rest ≠ .NAND :: c) :
    read_expression (.THEVALUEAT :: code) false = .ok (.ptr (the_value_at e), rest) := by
  rw [read_expression_eq]
  simp only [read_expression_switch, h, bind, Except.bind, pure, Except.pure,
    read_expression_nand_none _ _ rest hn, read_expression_close, the_value_at]

/-- The tokens `THEADDRESSOF` in front of an operand that reads as the node `e`. -/
theorem read_expression_the_address_of {code rest : List token} {e : expression}
    (h : read_expression code false = .ok (.ptr e, rest)) (hn : ∀ c, rest ≠ .NAND :: c) :
    read_expression (.THEADDRESSOF :: code) false = .ok (.ptr (the_address_of e), rest) := by
  rw [read_expression_eq]
  simp only [read_expression_switch, h, bind, Except.bind, pure, Except.pure,
    read_expression_nand_none _ _ rest hn, read_expression_close, the_address_of]

/-- The three lines of the alias property parse to the commands that `alias_in_range` runs:
`VARIABLE b EQUALS THEADDRESSOF VARIABLE a`, `THEVALUEAT VARIABLE b EQUALS v` and
`VARIABLE a EQUALS v`, for literals `da`, `db` of values `a`, `b`, followed by tokens
`rest` that begin neither with a digit nor with `NAND`. -/
theorem alias_lines_parse (strict_mode : Bool) (da db rest : List token) (hda : is_literal da)
    (hdb : is_literal db) (hrest : literal_operand_ends rest = true) (v : Bool) (lin : line)
    (warnings : List Nat) :
    parse_equals strict_mode
        (.VARIABLE :: db ++ .EQUALS :: (.THEADDRESSOF :: (.VARIABLE :: da ++ rest)))
        lin warnings =
      .ok ({ lin with command := (.equals_command
              ⟨variable_expr (binary_value db % size_t_mod),
                .ptr (the_address_of (variable_expr (binary_value da % size_t_mod)))⟩) },
            rest, warnings) ∧
    parse_equals strict_mode
        (.THEVALUEAT :: (.VARIABLE :: db ++ .EQUALS :: ([bit_token v] ++ rest)))
        lin warnings =
      .ok ({ lin with command := (.equals_command
              ⟨the_value_at (variable_expr (binary_value db % size_t_mod)), bit_literal v⟩) },
            rest, warnings) ∧
    parse_equals strict_mode (.VARIABLE :: da ++ .EQUALS :: ([bit_token v] ++ rest))
        lin warnings =
      .ok ({ lin with command := (.equals_command
              ⟨variable_expr (binary_value da % size_t_mod), bit_literal v⟩) },
            rest, warnings) := by
  have hbit : is_literal [bit_token v] := by cases v <;> decide
  have hbitv : binary_value [bit_token v] % size_t_mod = if v then 1 else 0 := by
    cases v <;> decide
  have hrhs := read_expression_literal [bit_token v] rest hbit hrest
  rw [hbitv] at hrhs
  have hne : [bit_token v] ++ rest ≠ [] := by simp
  have hle : (if v = true then 1 else 0) ≤ 1 := by cases v <;> decide
  have hb := fun r => read_expression_variable db (.EQUALS :: r) hdb rfl
  have ha := fun r => read_expression_variable da (.EQUALS :: r) hda rfl
  have ha2 := read_expression_variable da rest hda hrest
  have hn := literal_operand_ends_no_nand hrest
  refine ⟨?_, ?_, ?_⟩
  · simp only [parse_equals, hb, bind, Except.bind, ne_eq, not_true_eq_false, if_false,
      reduceCtorEq, read_expression_the_address_of ha2 hn, pure, Except.pure]
    simp [the_address_of, expression.type]
  · have hv := read_expression_the_value_at (hb ([bit_token v] ++ rest))
      (by rintro c h; cases h)
    simp only [parse_equals, hv, hrhs, hne, bind, Except.bind, ne_eq, not_true_eq_false,
      if_false, pure, Except.pure, bit_literal]
    rw [if_neg (by omega)]
  · simp only [parse_equals, ha, hrhs, hne, bind, Except.bind, ne_eq, not_true_eq_false,
      if_false, pure, Except.pure, bit_literal]
    rw [if_neg (by omega)]


/-- C9, failing input, with `a` the largest `size_t` (64 times ONE) and `b = 0`.  The
line `VARIABLE ZERO EQUALS THEADDRESSOF VARIABLE ONE ... ONE` parses to the first
command of the alias property.  Executed from the initial state, `get_address` finds
the number of variable `a` beyond the end of the empty table, the new size `index + 1`
wraps to 0, the table is resized to no entry and the store
`variables[index].type = BIT` is out of range: the first step of the property has
undefined behaviour. -/
theorem C9_failing_input (strict_mode : Bool) (fuel : Nat) (cin : List Char) :
    binary_value (List.replicate 64 .ONE) = size_t_mod - 1 ∧
      parse strict_mode
          ([.LINENUMBER, .ZERO, .CODE, .VARIABLE, .ZERO, .EQUALS, .THEADDRESSOF, .VARIABLE] ++
            List.replicate 64 .ONE) =
        .ok ([{ enabled := true, line_number := 0,
                command := .equals_command
                  ⟨variable_expr 0, .ptr (the_address_of (variable_expr (size_t_mod - 1)))⟩ }],
          []) ∧
      execute_equals
          ⟨variable_expr 0, .ptr (the_address_of (variable_expr (size_t_mod - 1)))⟩
          { cin := cin } =
        .error .undefined_behaviour ∧
      execute (fuel + 1)
          [{ enabled := true, line_number := 0,
             command := .equals_command
               ⟨variable_expr 0, .ptr (the_address_of (variable_expr (size_t_mod - 1)))⟩ }]
          { cin := cin } =
        .error .undefined_behaviour := by
  have hv : binary_value (List.replicate 64 .ONE) % size_t_mod = size_t_mod - 1 := by decide
  have hx : execute_equals
      ⟨variable_expr 0, .ptr (the_address_of (variable_expr (size_t_mod - 1)))⟩
      { cin := cin } = .error .undefined_behaviour := by
    have ha := get_address_variable_wrap (m := { cin := cin }) (Nat.zero_le _)
    simp [execute_equals, variable_expr, the_address_of, expression.type, get_val, bind,
      Except.bind] at ha ⊢
    simp [ha]
  refine ⟨by decide, ?_, hx, ?_⟩
  · have htoks : ([.LINENUMBER, .ZERO, .CODE, .VARIABLE, .ZERO, .EQUALS, .THEADDRESSOF,
        .VARIABLE] ++ List.replicate 64 .ONE : List token) =
          token.LINENUMBER :: [token.ZERO] ++ token.CODE ::
            (token.VARIABLE :: [token.ZERO] ++ token.EQUALS ::
              (token.THEADDRESSOF ::
                (token.VARIABLE :: List.replicate 64 token.ONE ++ []))) := by
      simp
    have hlen : (token.LINENUMBER :: [token.ZERO] ++ token.CODE ::
        (token.VARIABLE :: [token.ZERO] ++ token.EQUALS ::
          (token.THEADDRESSOF ::
            (token.VARIABLE :: List.replicate 64 token.ONE ++ [])))).length =
        71 + 1 := by simp
    have hal := (alias_lines_parse strict_mode (List.replicate 64 .ONE) [.ZERO] []
      (by decide) (by decide) (by decide) false
      { enabled := true, line_number := binary_value [.ZERO] % size_t_mod } []).1
    rw [hv] at hal
    have hz : binary_value [token.ZERO] % size_t_mod = 0 := by decide
    rw [htoks, parse, hlen, parse_fuel_line_in_range strict_mode _ _ _ (by decide) (by simp) _ _
      (by decide)]
    simp only [parse_body, hal]
    simp [hz, read_gotos, read_gotos_fuel, Except.bind, parse_fuel, resize]
  · simp only [execute, first_enabled, execute_loop, execute_command, hx, bind, Except.bind,
      if_true]


/-! ## Parser: goto lists -/

/-- One call of `read_gotos` on a vector that starts with `GOTO`, as a function of the
destination literal and the slot chosen. -/
theorem read_gotos_fuel_goto (n : Nat) (rest : List token) (lin : line)
    (hu : lin.goto_unconditional.enabled = false) {linenum : Nat} {code1 : List token}
    (h1 : read_literal rest = .ok (linenum, code1)) :
    read_gotos_fuel (n + 1) (.GOTO :: rest) lin =
      match read_gotos_definition code1 lin with
      | .error e => .error e
      | .ok (slot, code3) =>
        if (slot.deref lin).enabled then
          .error (.duplicate_goto_exception lin.line_number)
        else
          match code3 with
          | .GOTO :: _ =>
            read_gotos_fuel n code3 (slot.assign lin { enabled := true, destination := linenum })
          | _ => .ok (slot.assign lin { enabled := true, destination := linenum }, code3) := by
  have hr : rest ≠ [] := by
    rintro rfl
    simp [read_literal, read_literal_loop] at h1
  simp only [read_gotos_fuel, reduceCtorEq, if_false, hu, Bool.false_eq_true, ne_eq,
    not_true_eq_false, hr, h1, bind, Except.bind]
  cases read_gotos_definition code1 lin with
  | error e => rfl
  | ok d => rfl

theorem read_gotos_fuel_goto_duplicate (n : Nat) (rest : List token) (lin : line)
    (hu : lin.goto_unconditional.enabled = true) :
    read_gotos_fuel (n + 1) (.GOTO :: rest) lin =
      .error (.duplicate_goto_exception lin.line_number) := by
  simp [read_gotos_fuel, hu]

theorem goto_list_tokens_head (gs : List goto_item) (rest : List token)
    (hrest : goto_list_ends rest = true) :
    ((goto_list_tokens gs ++ rest = [] ∨
        ∃ c, goto_list_tokens gs ++ rest = .LINENUMBER :: c) ∧ gs = []) ∨
      ((∃ c, goto_list_tokens gs ++ rest = .GOTO :: c) ∧ gs ≠ []) := by
  cases gs with
  | nil =>
    left
    refine ⟨?_, rfl⟩
    cases rest with
    | nil => exact Or.inl rfl
    | cons t c =>
      right
      have : t = .LINENUMBER := by simpa [goto_list_ends] using hrest
      exact ⟨c, by simp [goto_list_tokens, this]⟩
  | cons g gs =>
    right
    exact ⟨⟨_, by simp only [goto_list_tokens, goto_item.tokens, List.cons_append]; rfl⟩,
      by simp⟩

/-- The step of `read_gotos` after a goto has been stored, on the tokens that follow a
goto in a well-formed list. -/
theorem read_gotos_fuel_continue (gs : List goto_item) (rest : List token)
    (hrest : goto_list_ends rest = true) (n : Nat) (lin : line)
    (hrec : read_gotos_fuel n (goto_list_tokens gs ++ rest) lin =
      match add_gotos lin gs with
      | .error e => .error e
      | .ok lin2 => .ok (lin2, rest)) :
    (match goto_list_tokens gs ++ rest with
      | .GOTO :: _ => read_gotos_fuel n (goto_list_tokens gs ++ rest) lin
      | _ => .ok (lin, goto_list_tokens gs ++ rest)) =
      match add_gotos lin gs with
      | .error e => .error e
      | .ok lin2 => .ok (lin2, rest) := by
  rcases goto_list_tokens_head gs rest hrest with ⟨h | ⟨c, h⟩, rfl⟩ | ⟨⟨c, h⟩, -⟩
  · simp only [goto_list_tokens, List.nil_append] at h ⊢
    subst h
    rfl
  · simp only [goto_list_tokens, List.nil_append] at h ⊢
    subst h
    rfl
  · rw [← hrec, h]

/-- On a well-formed goto list, followed by the end of the program or by the next
line, `read_gotos` does what the rule of the specification says: it adds the gotos in
order and fails with `duplicate_goto_exception` at the first one that conflicts. -/
theorem read_gotos_fuel_refines (gs : List goto_item) (hgs : ∀ g ∈ gs, is_literal g.dest)
    (rest : List token) (hrest : goto_list_ends rest = true) :
    ∀ (n : Nat) (lin : line), (goto_list_tokens gs ++ rest).length < n →
      read_gotos_fuel n (goto_list_tokens gs ++ rest) lin =
        match add_gotos lin gs with
        | .error e => .error e
        | .ok lin2 => .ok (lin2, rest) := by
  induction gs with
  | nil =>
    intro n lin hn
    obtain ⟨n, rfl⟩ : ∃ k, n = k + 1 := ⟨n - 1, by omega⟩
    cases rest with
    | nil => simp [goto_list_tokens, read_gotos_fuel, add_gotos]
    | cons t c =>
      have : t = .LINENUMBER := by simpa [goto_list_ends] using hrest
      simp [goto_list_tokens, read_gotos_fuel, add_gotos, this]
  | cons g gs ih =>
    intro n lin hn
    obtain ⟨n, rfl⟩ : ∃ k, n = k + 1 := ⟨n - 1, by omega⟩
    have hg : is_literal g.dest := hgs g (List.mem_cons_self _ _)
    have ih2 := ih (fun x hx => hgs x (List.mem_cons_of_mem _ hx))
    obtain ⟨dest, cond⟩ := g
    simp only at hg
    have hlen : (goto_list_tokens gs ++ rest).length < n := by
      simp only [goto_list_tokens, goto_item.tokens, List.cons_append, List.length_cons,
        List.length_append] at hn
      simp only [List.length_append]
      omega
    have hcont := fun l => read_gotos_fuel_continue gs rest hrest n l (ih2 n l hlen)
    have htail := goto_list_tokens_head gs rest hrest
    rcases cond with _ | b
    · have htoks : goto_list_tokens (⟨dest, none⟩ :: gs) ++ rest =
          .GOTO :: (dest ++ (goto_list_tokens gs ++ rest)) := by
        simp [goto_list_tokens, goto_item.tokens]
      rw [htoks]
      by_cases hu : lin.goto_unconditional.enabled = true
      · rw [read_gotos_fuel_goto_duplicate n _ lin hu]
        simp [add_gotos, add_goto, hu]
      · have hu2 : lin.goto_unconditional.enabled = false := by simpa using hu
        have hlit := read_literal_digits dest (goto_list_tokens gs ++ rest) hg
          (by rcases htail with ⟨h | ⟨c, h⟩, -⟩ | ⟨⟨c, h⟩, -⟩ <;> rw [h] <;> rfl)
        have hdef : read_gotos_definition (goto_list_tokens gs ++ rest) lin =
            if lin.goto_true.enabled || lin.goto_false.enabled then
              .error (.duplicate_goto_exception lin.line_number)
            else .ok (.goto_unconditional, goto_list_tokens gs ++ rest) := by
          rcases htail with ⟨h | ⟨c, h⟩, -⟩ | ⟨⟨c, h⟩, -⟩ <;> rw [h] <;> rfl
        rw [read_gotos_fuel_goto n _ lin hu2 hlit, hdef]
        simp only [add_gotos, add_goto, hu2, Bool.false_or]
        by_cases hc : (lin.goto_true.enabled || lin.goto_false.enabled) = true
        · simp only [hc, if_true]
        · simp only [hc, if_false, goto_slot.deref, hu2, Bool.false_eq_true]
          exact hcont _
    · have htoks : goto_list_tokens (⟨dest, some b⟩ :: gs) ++ rest =
          .GOTO :: (dest ++
            ([.IFTHEJUMPREGISTERIS, bit_token b] ++ (goto_list_tokens gs ++ rest))) := by
        simp [goto_list_tokens, goto_item.tokens]
      rw [htoks]
      by_cases hu : lin.goto_unconditional.enabled = true
      · rw [read_gotos_fuel_goto_duplicate n _ lin hu]
        cases b <;> simp [add_gotos, add_goto, hu]
      · have hu2 : lin.goto_unconditional.enabled = false := by simpa using hu
        have hlit := read_literal_digits dest
          ([.IFTHEJUMPREGISTERIS, bit_token b] ++ (goto_list_tokens gs ++ rest)) hg rfl
        rw [read_gotos_fuel_goto n _ lin hu2 hlit]
        cases b
        · have hdef : read_gotos_definition
              ([.IFTHEJUMPREGISTERIS, bit_token false] ++ (goto_list_tokens gs ++ rest)) lin =
                .ok (.goto_false, goto_list_tokens gs ++ rest) := rfl
          rw [hdef]
          simp only [add_gotos, add_goto, hu2, Bool.false_or]
          by_cases hc : lin.goto_false.enabled = true
          · simp only [goto_slot.deref, hc, if_true]
          · simp only [goto_slot.deref, hc, if_false]
            exact hcont _
        · have hdef : read_gotos_definition
              ([.IFTHEJUMPREGISTERIS, bit_token true] ++ (goto_list_tokens gs ++ rest)) lin =
                .ok (.goto_true, goto_list_tokens gs ++ rest) := rfl
          rw [hdef]
          simp only [add_gotos, add_goto, hu2, Bool.false_or]
          by_cases hc : lin.goto_true.enabled = true
          · simp only [goto_slot.deref, hc, if_true]
          · simp only [goto_slot.deref, hc, if_false]
            exact hcont _

/-- The refinement for `read_gotos` itself. -/
theorem read_gotos_refines (gs : List goto_item) (hgs : ∀ g ∈ gs, is_literal g.dest)
    (rest : List token) (hrest : goto_list_ends rest = true) (lin : line) :
    read_gotos (goto_list_tokens gs ++ rest) lin =
      match add_gotos lin gs with
      | .error e => .error e
      | .ok lin2 => .ok (lin2, rest) :=
  read_gotos_fuel_refines gs hgs rest hrest _ lin (Nat.lt_succ_self _)


/-! ## Failing inputs -/

/-- C12, failing input. With an empty variable table, `get_val` of `VARIABLE ZERO` reads
`variables[0]` out of range: undefined behaviour, not `invalid_operation_exception`.
The first line is the evaluation in the initial state, the second the whole run of
`LINENUMBER ZERO CODE THEJUMPREGISTER EQUALS VARIABLE ZERO`. -/
theorem C12_failing_input :
    get_val (variable_expr 0) {} = .error .undefined_behaviour ∧
      run false 1 "LINENUMBER ZERO CODE THEJUMPREGISTER EQUALS VARIABLE ZERO".toList [] =
        .error .undefined_behaviour := by
  decide

/-- C16, failing input. The `switch` of `read_bit` has no `default`: a character other
than `O`, `N`, `E`, `Z`, `R` leaves the matcher where it is, so `ZXERO` is read as the
bit false and `OXNE` as the bit true, although the characters consumed end with
`XERO` and `XNE`. -/
theorem C16_failing_input :
    read_bit "ZXERO".toList = some (false, []) ∧ read_bit "OXNE".toList = some (true, []) := by
  decide

/-- C17, failing input. For a left-hand side that is a bare literal, `read_expression`
returns a number and `std::get<std::shared_ptr<expression>>` throws
`std::bad_variant_access`, which is none of the exceptions of the program. -/
theorem C17_failing_input :
    parse false [.LINENUMBER, .ZERO, .CODE, .ONE, .EQUALS, .ONE] =
        .error .bad_variant_access ∧
      parse true [.LINENUMBER, .ZERO, .CODE, .ONE, .EQUALS, .ONE] =
        .error .bad_variant_access := by
  decide

/-- C18, failing input. A READ body that ends the program is rejected with
`unexpected_end_of_program_exception`, whereas the same line followed by another line
is accepted, and so is a PRINT body that ends the program. -/
theorem C18_failing_input :
    parse false [.LINENUMBER, .ZERO, .CODE, .READ] =
        .error (.unexpected_end_of_program_exception "line") ∧
      parse false [.LINENUMBER, .ZERO, .CODE, .READ, .LINENUMBER, .ONE, .CODE, .PRINT, .ONE] =
        .ok ([{ enabled := true, line_number := 0, command := .monostate },
              { enabled := true, line_number := 1, command := .bool true }], []) ∧
      parse false [.LINENUMBER, .ZERO, .CODE, .PRINT, .ONE] =
        .ok ([{ enabled := true, line_number := 0, command := .bool true }], []) := by
  decide

/-- C19, failing input. When the tokens end right after the expression inside the
parentheses, the check for `CLOSEPARENTHESIS` is skipped and the program is accepted;
with any other token in place of `CLOSEPARENTHESIS` the check is made and fails. -/
theorem C19_failing_input :
    parse false [.LINENUMBER, .ZERO, .CODE, .VARIABLE, .ZERO, .EQUALS,
        .OPENPARENTHESIS, .ONE] =
        .ok ([{ enabled := true, line_number := 0,
                command := .equals_command
                  ⟨.mk .VARIABLE .monostate (.size_t 0), .size_t 1⟩ }], []) ∧
      parse false [.LINENUMBER, .ZERO, .CODE, .VARIABLE, .ZERO, .EQUALS,
        .OPENPARENTHESIS, .ONE, .GOTO, .ONE] =
        .error (.unexpected_token_exception "GOTO" "parentheses") := by
  decide

set_option maxRecDepth 100000 in
/-- C20, failing input, with `a = 1`, `b = 0`, `x = ONE`, `y = ZERO`.  From the initial
state `VARIABLE ONE EQUALS ONE` binds variable 1 to cell 0 and creates the entry of
variable 0 with kind EMPTY; `VARIABLE ZERO EQUALS ZERO` then gets the index 0 of that
EMPTY entry from `get_address`, so its bit goes to cell 0 as well, and `VARIABLE ONE`
evaluates to false.  The last part is the run of the program that makes the two writes
and copies `VARIABLE ONE` to the jump register. -/
theorem C20_failing_input :
    execute_equals ⟨variable_expr 1, bit_literal true⟩ {} =
        .ok { memory := [true],
              vars := [{ type := .EMPTY, index := 0 }, { type := .BIT, index := 0 }] } ∧
      execute_equals ⟨variable_expr 0, bit_literal false⟩
          { memory := [true],
            vars := [{ type := .EMPTY, index := 0 }, { type := .BIT, index := 0 }] } =
        .ok { memory := [false],
              vars := [{ type := .EMPTY, index := 0 }, { type := .BIT, index := 0 }] } ∧
      get_val (variable_expr 1)
          { memory := [false],
            vars := [{ type := .EMPTY, index := 0 }, { type := .BIT, index := 0 }] } =
        .ok (.bool false,
          { memory := [false],
            vars := [{ type := .EMPTY, index := 0 }, { type := .BIT, index := 0 }] }) ∧
      run false 3
        ("LINENUMBER ZERO CODE VARIABLE ONE EQUALS ONE GOTO ONE " ++
          "LINENUMBER ONE CODE VARIABLE ZERO EQUALS ZERO GOTO ONE ZERO " ++
          "LINENUMBER ONE ZERO CODE THEJUMPREGISTER EQUALS VARIABLE ONE").toList [] =
        .ok (some { memory := [false],
                    vars := [{ type := .EMPTY, index := 0 }, { type := .BIT, index := 0 }],
                    jump_register := false, cin := [], cout := [] }) := by
  decide


/-! ## Evaluator: fresh variables, NAND, control transfer -/

theorem resize_append_set {α : Type} (l : List α) (d v : α) :
    (resize l (l.length + 1) d).set l.length v = l ++ [v] := by
  have h1 : List.take (l.length + 1) l = l := List.take_of_length_le (Nat.le_succ _)
  simp only [resize, h1, Nat.add_sub_cancel_left, List.replicate_one]
  rw [List.set_append_right _ _ (Nat.le_refl _)]
  simp

/-- C13. If the left operand of a NAND expression reduces to the bit `a` and the right
operand, in the state the left one leaves, reduces to the bit `b`, where a literal is
true exactly when it is not zero, then `get_val` returns the bit NOT (`a` AND `b`); the
right operand is evaluated only when `a` is true.  In particular `x NAND ONE` evaluates
to the negation of the bit of `x`. -/
theorem C13_nand (l r : expr_variant) (m m1 m2 : machine) (a b : Bool)
    (hl : reduces_to_bit l m a m1) (hr : reduces_to_bit r m1 b m2) :
    get_val (.mk .NAND l r) m = .ok (.bool (!(a && b)), if a then m2 else m1) ∧
      (∀ (e : expression) (x : Bool) (mx : machine), get_val e m = .ok (.bool x, mx) →
        get_val (.mk .NAND (.ptr e) (.size_t 1)) m = .ok (.bool (!x), mx)) := by
  constructor
  · cases l with
    | monostate => exact absurd hl (by simp [reduces_to_bit])
    | size_t n =>
      obtain ⟨rfl, rfl⟩ := hl
      cases r with
      | monostate => exact absurd hr (by simp [reduces_to_bit])
      | size_t k =>
        obtain ⟨rfl, rfl⟩ := hr
        cases hn : (n != 0) <;> simp [get_val, hn, bind, Except.bind, pure, Except.pure]
      | ptr e =>
        simp only [reduces_to_bit] at hr
        cases hn : (n != 0) <;> simp [get_val, hn, hr, bind, Except.bind, pure, Except.pure]
    | ptr e =>
      simp only [reduces_to_bit] at hl
      cases r with
      | monostate => exact absurd hr (by simp [reduces_to_bit])
      | size_t k =>
        obtain ⟨rfl, rfl⟩ := hr
        cases a <;> simp [get_val, hl, bind, Except.bind, pure, Except.pure]
      | ptr e2 =>
        simp only [reduces_to_bit] at hr
        cases a <;> simp [get_val, hl, hr, bind, Except.bind, pure, Except.pure]
  · intro e x mx hx
    cases x <;> simp [get_val, hx, bind, Except.bind, pure, Except.pure]

theorem C13_nand_witness :
    reduces_to_bit (.size_t 2) { jump_register := true } true { jump_register := true } ∧
      reduces_to_bit (.ptr (.mk .THE_JUMP_REGISTER .monostate .monostate))
        { jump_register := true } true { jump_register := true } ∧
      get_val (.mk .NAND (.size_t 2) (.ptr (.mk .THE_JUMP_REGISTER .monostate .monostate)))
          { jump_register := true } =
        .ok (.bool false, { jump_register := true }) :=
  have hl : reduces_to_bit (.size_t 2) { jump_register := true } true
      { jump_register := true } := ⟨by decide, rfl⟩
  have hr : reduces_to_bit (.ptr (.mk .THE_JUMP_REGISTER .monostate .monostate))
      { jump_register := true } true { jump_register := true } := by
    simp [reduces_to_bit, get_val, pure, Except.pure]
  ⟨hl, hr, (C13_nand _ _ _ _ _ _ _ hl hr).1⟩


/-- C14. One iteration of the loop of `execute` on a line whose command runs to the
state `m2`: execution goes on at the destination of the unconditional goto if the line
has one; otherwise at that of the false-goto if the line has one and the jump register
is false; otherwise at that of the true-goto if the line has one and the jump register
is true; otherwise the loop ends in `m2`.  The control transfer reaches `break` if and
only if the line has no unconditional goto and no conditional goto for the value of the
jump register.  (A destination is read with `program[...]`, which is undefined
behaviour beyond the end of the table.) -/
theorem C14_control_transfer (program : List line) (lin : line) (m m2 : machine) (fuel : Nat)
    (hcmd : execute_command lin m = .ok (some m2)) :
    execute_loop program (fuel + 1) lin m =
        (if lin.goto_unconditional.enabled then
          (vector_at program lin.goto_unconditional.destination).bind fun l =>
            execute_loop program fuel l m2
        else if lin.goto_false.enabled && !m2.jump_register then
          (vector_at program lin.goto_false.destination).bind fun l =>
            execute_loop program fuel l m2
        else if lin.goto_true.enabled && m2.jump_register then
          (vector_at program lin.goto_true.destination).bind fun l =>
            execute_loop program fuel l m2
        else .ok (some m2)) ∧
      (next_line program lin m2.jump_register = .ok none ↔
        lin.goto_unconditional.enabled = false ∧
          (if m2.jump_register then lin.goto_true.enabled = false
            else lin.goto_false.enabled = false)) := by
  constructor
  · by_cases hu : lin.goto_unconditional.enabled = true
    · simp only [execute_loop, hcmd, next_line, hu, if_true, bind, Except.bind, pure,
        Except.pure]
      cases vector_at program lin.goto_unconditional.destination <;> rfl
    · by_cases hf : (lin.goto_false.enabled && !m2.jump_register) = true
      · simp only [execute_loop, hcmd, next_line, hu, hf, if_true, if_false,
          Bool.false_eq_true, bind, Except.bind, pure, Except.pure]
        cases vector_at program lin.goto_false.destination <;> rfl
      · by_cases ht : (lin.goto_true.enabled && m2.jump_register) = true
        · simp only [execute_loop, hcmd, next_line, hu, hf, ht, if_true, if_false,
            Bool.false_eq_true, bind, Except.bind, pure, Except.pure]
          cases vector_at program lin.goto_true.destination <;> rfl
        · simp only [execute_loop, hcmd, next_line, hu, hf, ht, if_false,
            Bool.false_eq_true, bind, Except.bind, pure, Except.pure]
  · simp only [next_line, bind, Except.bind, pure, Except.pure]
    cases hu : lin.goto_unconditional.enabled <;> cases hf : lin.goto_false.enabled <;>
      cases ht : lin.goto_true.enabled <;> cases hj : m2.jump_register <;>
      simp <;>
      (first
        | (cases vector_at program lin.goto_unconditional.destination <;> simp)
        | (cases vector_at program lin.goto_false.destination <;> simp)
        | (cases vector_at program lin.goto_true.destination <;> simp))

theorem C14_control_transfer_witness :
    execute_command
        { enabled := true, command := .bool true,
          goto_true := { enabled := true, destination := 0 } } {} =
      .ok (some { cout := ["ONE"] }) ∧
    (execute_loop
        [{ enabled := true, command := .bool true,
           goto_true := { enabled := true, destination := 0 } }] (0 + 1)
        { enabled := true, command := .bool true,
          goto_true := { enabled := true, destination := 0 } } {} =
      .ok (some { cout := ["ONE"] }) ∧
      (next_line
          [{ enabled := true, command := .bool true,
             goto_true := { enabled := true, destination := 0 } }]
          { enabled := true, command := .bool true,
            goto_true := { enabled := true, destination := 0 } } false = .ok none ↔
        (false = false ∧ false = false))) :=
  ⟨by decide,
    C14_control_transfer
      [{ enabled := true, command := .bool true,
         goto_true := { enabled := true, destination := 0 } }]
      { enabled := true, command := .bool true,
        goto_true := { enabled := true, destination := 0 } } {} { cout := ["ONE"] } 0
      (by decide)⟩


/-! ## Parser: the shape of the table -/

theorem table_shape_nil : table_shape [] := by
  intro i l h
  simp at h

theorem table_shape_step {ret : List line} (h : table_shape ret) (n : Nat) (lin : line)
    (he : lin.enabled = true) (hn : lin.line_number = n) :
    table_shape ((if n ≥ ret.length then resize ret (n + 1) {} else ret).set n lin) := by
  intro i l hl
  rw [List.length_set]
  by_cases hin : i = n
  · subst hin
    have hlt : i < (if i ≥ ret.length then resize ret (i + 1) {} else ret).length := by
      split
      · rw [length_resize]; exact Nat.lt_succ_self _
      · omega
    rw [List.getElem?_set_eq_of_lt _ hlt] at hl
    simp only [Option.some.injEq] at hl
    subst hl
    exact ⟨fun _ => hn, fun _ => he⟩
  · rw [List.getElem?_set_ne (Ne.symm hin)] at hl
    by_cases hge : n ≥ ret.length
    · rw [if_pos hge] at hl ⊢
      rw [length_resize]
      rw [getElem?_resize] at hl
      split at hl
      · rename_i hlt
        cases hl
        refine ⟨?_, fun h1 => absurd (Nat.succ_injective h1) hin⟩
        intro hen
        by_cases hi : i < ret.length
        · have hget : ret[i]? = some (ret.getD i {}) := by
            rw [List.getD_eq_getElem?_getD, List.getElem?_eq_getElem hi]; rfl
          exact (h i _ hget).1 hen
        · rw [List.getD_eq_getElem?_getD, List.getElem?_eq_none (Nat.le_of_not_lt hi)] at hen
          cases hen
      · cases hl
    · rw [if_neg hge] at hl ⊢
      exact h i l hl

theorem parse_body_enabled {strict_mode : Bool} {code code2 : List token} {lin lin2 : line}
    {warnings warnings2 : List Nat}
    (h : parse_body strict_mode code lin warnings = .ok (lin2, code2, warnings2)) :
    lin2.enabled = lin.enabled ∧ lin2.line_number = lin.line_number := by
  rcases parse_body_ok_inv h with ⟨b, -, rfl, -⟩ | ⟨-, -, rfl, -⟩ | he
  · exact ⟨rfl, rfl⟩
  · exact ⟨rfl, rfl⟩
  · obtain ⟨var, code1, val, -, -, -, -, rfl, -⟩ := parse_equals_ok_inv he
    exact ⟨rfl, rfl⟩

/-- The loop of `parse` keeps the shape of the table and never shortens it. -/
theorem parse_fuel_table_shape (strict_mode : Bool) (fuel : Nat) :
    ∀ (code : List token) (ret : List line) (warnings : List Nat) (r : List line × List Nat),
      parse_fuel strict_mode fuel code ret warnings = .ok r → table_shape ret →
        table_shape r.1 ∧ ret.length ≤ r.1.length := by
  induction fuel with
  | zero =>
    intro code ret warnings r h hret
    cases code with
    | nil =>
      simp only [parse_fuel, Except.ok.injEq] at h
      rw [← h]; exact ⟨hret, Nat.le_refl _⟩
    | cons t c => simp [parse_fuel] at h
  | succ fuel ih =>
    intro code ret warnings r h hret
    cases code with
    | nil =>
      simp only [parse_fuel, Except.ok.injEq] at h
      rw [← h]; exact ⟨hret, Nat.le_refl _⟩
    | cons t c =>
      obtain ⟨line_number, code1, lin, code2, warnings1, lin2, code3, -, -, hb, hg, hrec⟩ :=
        parse_fuel_ok_inv h
      have e1 := parse_body_enabled hb
      have e2 := read_gotos_fuel_command _ _ _ _ _ hg
      have hen : lin2.enabled = true := by rw [e2.2.1, e1.1]
      have hln : lin2.line_number = line_number := by rw [e2.2.2, e1.2]
      have := ih _ _ _ _ hrec (table_shape_step hret line_number lin2 hen hln)
      refine ⟨this.1, Nat.le_trans ?_ this.2⟩
      rw [List.length_set]
      split
      · rw [length_resize]; omega
      · exact Nat.le_refl _

/-- A successful `parse` of at least one token leaves at least one entry in the
table. -/
theorem parse_table_ne_nil {strict_mode : Bool} {code : List token} {r : List line × List Nat}
    (hne : code ≠ []) (h : parse strict_mode code = .ok r) : 0 < r.1.length := by
  cases code with
  | nil => exact absurd rfl hne
  | cons t c =>
    rw [parse, List.length_cons] at h
    obtain ⟨line_number, code1, lin, code2, warnings1, lin2, code3, -, -, hb, hg, hrec⟩ :=
      parse_fuel_ok_inv h
    have e1 := parse_body_enabled hb
    have e2 := read_gotos_fuel_command _ _ _ _ _ hg
    have hen : lin2.enabled = true := by rw [e2.2.1, e1.1]
    have hln : lin2.line_number = line_number := by rw [e2.2.2, e1.2]
    have := parse_fuel_table_shape strict_mode _ _ _ _ _ hrec
      (table_shape_step table_shape_nil line_number lin2 hen hln)
    have hl : ((if line_number ≥ ([] : List line).length then
        resize [] (line_number + 1) {} else []).set line_number lin2).length =
          line_number + 1 := by
      simp [length_resize]
    omega

/-- The scan at the start of `execute` on a table with a defined entry: it stops at
the first defined entry. -/
theorem first_enabled_of_exists (program : List line)
    (h : ∃ (i : Nat) (l : line), program[i]? = some l ∧ l.enabled = true) :
    ∃ (k : Nat) (lin : line), first_enabled program = .ok lin ∧ program[k]? = some lin ∧
      lin.enabled = true ∧
      ∀ i < k, ∀ x, program[i]? = some x → x.enabled = false := by
  induction program with
  | nil => obtain ⟨i, l, hl, -⟩ := h; simp at hl
  | cons p ps ih =>
    by_cases hp : p.enabled = true
    · exact ⟨0, p, by simp [first_enabled, hp], by simp, hp,
        fun i hi => absurd hi (Nat.not_lt_zero _)⟩
    · have hp2 : p.enabled = false := by simpa using hp
      have : ∃ (i : Nat) (l : line), ps[i]? = some l ∧ l.enabled = true := by
        obtain ⟨i, l, hl, he⟩ := h
        cases i with
        | zero =>
          simp only [List.getElem?_cons_zero, Option.some.injEq] at hl
          rw [hl] at hp2
          rw [hp2] at he
          cases he
        | succ i => exact ⟨i, l, by simpa using hl, he⟩
      obtain ⟨k, lin, h1, h2, h3, h4⟩ := ih this
      refine ⟨k + 1, lin, by simp [first_enabled, hp2, h1], by simpa using h2, h3, ?_⟩
      intro i hi x hx
      cases i with
      | zero =>
        simp only [List.getElem?_cons_zero, Option.some.injEq] at hx
        rw [← hx]; exact hp2
      | succ i => exact h4 i (by omega) x (by simpa using hx)

/-- C15. When `parse` succeeds on at least one token, the table it returns is not
empty and its last entry is a defined line; the scan at the start of `execute` then
stays inside the table and stops at a defined line `lin` that sits at the index of its
own line number, every entry before it being undefined, and `execute` runs the loop from
`lin`. -/
theorem C15_first_line (strict_mode : Bool) (code : List token) (table : List line)
    (warnings : List Nat) (hne : code ≠ [])
    (h : parse strict_mode code = .ok (table, warnings)) :
    table ≠ [] ∧ (∃ l : line, table.getLast? = some l ∧ l.enabled = true) ∧
      ∃ lin : line, first_enabled table = .ok lin ∧ lin.enabled = true ∧
        table[lin.line_number]? = some lin ∧
        (∀ i < lin.line_number, ∀ x : line, table[i]? = some x → x.enabled = false) ∧
        ∀ (fuel : Nat) (m : machine), execute fuel table m = execute_loop table fuel lin m := by
  have hshape := (parse_fuel_table_shape strict_mode _ _ _ _ _ h table_shape_nil).1
  have hlen := parse_table_ne_nil hne h
  simp only at hshape hlen
  have hlt : table.length - 1 < table.length := by omega
  obtain ⟨l, hlast⟩ : ∃ l : line, table[table.length - 1]? = some l :=
    ⟨table[table.length - 1], List.getElem?_eq_getElem hlt⟩
  have hen := (hshape _ _ hlast).2 (by omega)
  obtain ⟨k, lin, h1, h2, h3, h4⟩ := first_enabled_of_exists table ⟨_, _, hlast, hen⟩
  have hk := (hshape k lin h2).1 h3
  refine ⟨?_, ⟨_, ?_, hen⟩, lin, h1, h3, by rw [hk]; exact h2, by rw [hk]; exact h4, ?_⟩
  · intro hnil
    rw [hnil] at hlen
    exact Nat.lt_irrefl _ hlen
  · rw [List.getLast?_eq_getElem?]; exact hlast
  · intro fuel m
    simp [execute, h1, bind, Except.bind]

theorem C15_first_line_witness :
    ([.LINENUMBER, .ONE, .CODE, .PRINT, .ONE] : List token) ≠ [] ∧
      parse false [.LINENUMBER, .ONE, .CODE, .PRINT, .ONE] =
        .ok ([{}, { enabled := true, line_number := 1, command := .bool true }], []) ∧
      (([{}, { enabled := true, line_number := 1, command := .bool true }] : List line) ≠ [] ∧
        (∃ l : line,
          ([{}, { enabled := true, line_number := 1, command := .bool true }] :
            List line).getLast? = some l ∧ l.enabled = true) ∧
        ∃ lin : line,
          first_enabled [{}, { enabled := true, line_number := 1, command := .bool true }] =
            .ok lin ∧ lin.enabled = true ∧
          ([{}, { enabled := true, line_number := 1, command := .bool true }] :
            List line)[lin.line_number]? = some lin ∧
          (∀ i < lin.line_number, ∀ x : line,
            ([{}, { enabled := true, line_number := 1, command := .bool true }] :
              List line)[i]? = some x → x.enabled = false) ∧
          ∀ (fuel : Nat) (m : machine),
            execute fuel [{}, { enabled := true, line_number := 1, command := .bool true }] m =
              execute_loop [{}, { enabled := true, line_number := 1, command := .bool true }]
                fuel lin m) :=
  ⟨by decide, by decide,
    C15_first_line false [.LINENUMBER, .ONE, .CODE, .PRINT, .ONE] _ [] (by decide) (by decide)⟩


/-! ## Parser: the kinds of error -/

theorem except_bind_error {α β : Type} {x : Except error α} {f : α → Except error β}
    {e : error} (h : x.bind f = .error e) :
    x = .error e ∨ ∃ v, x = .ok v ∧ f v = .error e := by
  cases x with
  | error e2 => left; simpa [Except.bind] using h
  | ok v => right; exact ⟨v, rfl, by simpa [Except.bind] using h⟩

theorem read_literal_error {code : List token} {e : error} (h : read_literal code = .error e) :
    e.parse_kind = true := by
  rw [read_literal] at h
  revert h
  generalize read_literal_loop code 0 .ZERO false false = r
  obtain ⟨⟨ret, tok, rd, rt⟩, c⟩ := r
  simp only
  split
  · intro h; cases h; rfl
  · split
    · intro h; cases h; rfl
    · intro h; cases h

theorem parse_kind_parser_error {e : error} (h : e.parse_kind = true) :
    e.parser_error = true := by
  cases e <;> first | rfl | cases h

theorem read_expression_switch_error
    (r : List token → Bool → Except error (expr_variant × List token))
    (hr : ∀ c q e, r c q = .error e → e.parser_error = true)
    {code : List token} {e : error} (h : read_expression_switch r code = .error e) :
    e.parser_error = true := by
  cases code with
  | nil => simp only [read_expression_switch] at h; cases h; rfl
  | cons tok rest =>
    have key : ∀ (q : Bool) (f : expr_variant → expr_variant),
        (r rest q >>= fun x => pure (f x.1, x.2)) = .error e → e.parser_error = true := by
      intro q f hq
      rcases except_bind_error hq with h1 | ⟨v, -, h2⟩
      · exact hr _ _ _ h1
      · cases h2
    have keylit : ∀ (c : List token) (f : Nat → expr_variant),
        (read_literal c >>= fun x => pure (f x.1, x.2)) = .error e →
          e.parser_error = true := by
      intro c f hq
      rcases except_bind_error hq with h1 | ⟨v, -, h2⟩
      · exact parse_kind_parser_error (read_literal_error h1)
      · cases h2
    cases tok
    case ZERO => exact keylit _ (fun n => .size_t n) h
    case ONE => exact keylit _ (fun n => .size_t n) h
    case VARIABLE => exact keylit rest (fun n => .ptr (.mk .VARIABLE .monostate (.size_t n))) h
    case THEVALUEAT => exact key false (fun x => .ptr (.mk .THE_VALUE_AT .monostate x)) h
    case THEVALUEBEYOND =>
      exact key false (fun x => .ptr (.mk .THE_VALUE_BEYOND .monostate x)) h
    case THEADDRESSOF => exact key false (fun x => .ptr (.mk .THE_ADDRESS_OF .monostate x)) h
    case OPENPARENTHESIS => exact hr rest true e h
    all_goals
      simp only [read_expression_switch, pure, Except.pure] at h
      cases h <;> rfl

theorem read_expression_nand_error
    (r : List token → Bool → Except error (expr_variant × List token))
    (hr : ∀ c q e, r c q = .error e → e.parser_error = true)
    {expr : expr_variant} {code : List token} {e : error}
    (h : read_expression_nand r expr code = .error e) : e.parser_error = true := by
  cases code with
  | nil => simp [read_expression_nand, pure, Except.pure] at h
  | cons tok rest =>
    by_cases ht : tok = .NAND
    · subst ht
      simp only [read_expression_nand] at h
      rcases except_bind_error h with h1 | ⟨v, -, h2⟩
      · exact hr _ _ _ h1
      · cases h2
    · rw [read_expression_nand_none r expr (tok :: rest)
        (by rintro c hc; cases hc; exact ht rfl)] at h
      cases h

theorem read_expression_close_error {p : Bool} {expr : expr_variant} {code : List token}
    {e : error} (h : read_expression_close p expr code = .error e) :
    e.parser_error = true := by
  cases p <;> cases code with
  | nil => simp [read_expression_close, pure, Except.pure] at h
  | cons tok rest =>
    simp only [read_expression_close, pure, Except.pure] at h
    first
      | cases h
      | (split at h
         · cases h; rfl
         · cases h)

theorem read_expression_fuel_error (n : Nat) :
    ∀ (code : List token) (p : Bool) (e : error),
      read_expression_fuel n code p = .error e → e.parser_error = true := by
  induction n with
  | zero => intro code p e h; simp only [read_expression_fuel] at h; cases h; rfl
  | succ n ih =>
    intro code p e h
    simp only [read_expression_fuel, bind] at h
    rcases except_bind_error h with h1 | ⟨v1, -, h2⟩
    · exact read_expression_switch_error _ ih h1
    · rcases except_bind_error h2 with h3 | ⟨v2, -, h4⟩
      · exact read_expression_nand_error _ ih h3
      · exact read_expression_close_error h4

theorem read_expression_error {code : List token} {p : Bool} {e : error}
    (h : read_expression code p = .error e) : e.parser_error = true :=
  read_expression_fuel_error _ code p e h

theorem read_gotos_definition_error {code : List token} {lin : line} {e : error}
    (h : read_gotos_definition code lin = .error e) : e.parser_error = true := by
  unfold read_gotos_definition at h
  split at h
  · split at h <;> cases h <;> rfl
  · split at h <;> cases h <;> rfl

theorem read_gotos_fuel_error (n : Nat) :
    ∀ (code : List token) (lin : line) (e : error),
      read_gotos_fuel n code lin = .error e → e.parser_error = true := by
  induction n with
  | zero => intro code lin e h; simp only [read_gotos_fuel] at h; cases h; rfl
  | succ n ih =>
    intro code lin e h
    cases code with
    | nil => simp [read_gotos_fuel] at h
    | cons tok rest =>
      simp only [read_gotos_fuel] at h
      split at h
      · cases h
      · split at h
        · cases h; rfl
        · split at h
          · cases h; rfl
          · split at h
            · cases h; rfl
            · simp only [bind] at h
              rcases except_bind_error h with h1 | ⟨v1, -, h2⟩
              · exact parse_kind_parser_error (read_literal_error h1)
              · rcases except_bind_error h2 with h3 | ⟨v2, -, h4⟩
                · exact read_gotos_definition_error h3
                · split at h4
                  · cases h4; rfl
                  · split at h4
                    · exact ih _ _ _ h4
                    · cases h4

theorem parse_equals_error {strict_mode : Bool} {code : List token} {lin : line}
    {warnings : List Nat} {e : error}
    (h : parse_equals strict_mode code lin warnings = .error e) : e.parser_error = true := by
  simp only [parse_equals, bind] at h
  rcases except_bind_error h with h1 | ⟨v1, -, h2⟩
  · exact read_expression_error h1
  · obtain ⟨v, c1⟩ := v1
    cases v with
    | monostate => cases h2; rfl
    | size_t n => cases h2; rfl
    | ptr var =>
      simp only at h2
      cases c1 with
      | nil => cases h2; rfl
      | cons tok code1 =>
        simp only at h2
        split at h2
        · cases h2; rfl
        · split at h2
          · cases h2; rfl
          · rcases except_bind_error h2 with h3 | ⟨v2, -, h4⟩
            · exact read_expression_error h3
            · obtain ⟨val, c2⟩ := v2
              cases val with
              | monostate => cases h4
              | size_t n =>
                simp only at h4
                split at h4
                · cases h4; rfl
                · cases h4
              | ptr e2 =>
                simp only at h4
                split at h4
                · split at h4
                  · cases h4; rfl
                  · cases h4
                · cases h4

theorem parse_body_error {strict_mode : Bool} {code : List token} {lin : line}
    {warnings : List Nat} {e : error}
    (h : parse_body strict_mode code lin warnings = .error e) : e.parser_error = true := by
  cases code with
  | nil => simp only [parse_body] at h; cases h; rfl
  | cons tok rest =>
    cases tok
    case PRINT =>
      cases rest with
      | nil => simp only [parse_body] at h; cases h; rfl
      | cons t r => cases t <;> simp only [parse_body] at h <;> cases h <;> rfl
    case READ =>
      simp only [parse_body] at h
      split at h <;> cases h <;> rfl
    all_goals exact parse_equals_error h

theorem parse_fuel_error (strict_mode : Bool) (n : Nat) :
    ∀ (code : List token) (ret : List line) (warnings : List Nat) (e : error),
      parse_fuel strict_mode n code ret warnings = .error e →
        e.parser_error = true ∨ e = .undefined_behaviour := by
  induction n with
  | zero =>
    intro code ret warnings e h
    cases code with
    | nil => simp [parse_fuel] at h
    | cons t c => simp only [parse_fuel] at h; cases h; exact Or.inl rfl
  | succ n ih =>
    intro code ret warnings e h
    cases code with
    | nil => simp [parse_fuel] at h
    | cons tok code =>
      simp only [parse_fuel] at h
      split at h
      · cases h; exact Or.inl rfl
      · simp only [bind] at h
        rcases except_bind_error h with h1 | ⟨v1, -, h2⟩
        · exact Or.inl (parse_kind_parser_error (read_literal_error h1))
        · obtain ⟨line_number, c1⟩ := v1
          cases c1 with
          | nil => cases h2; exact Or.inl rfl
          | cons t c1 =>
            simp only at h2
            split at h2
            · cases h2; exact Or.inl rfl
            · split at h2
              · cases h2; exact Or.inl rfl
              · rcases except_bind_error h2 with h3 | ⟨v2, -, h4⟩
                · exact Or.inl (parse_body_error h3)
                · rcases except_bind_error h4 with h5 | ⟨v3, -, h6⟩
                  · exact Or.inl (read_gotos_fuel_error _ _ _ _ h5)
                  · rcases except_bind_error h6 with h7 | ⟨ret2, -, h8⟩
                    · exact Or.inr (vector_set_error h7)
                    · exact ih _ _ _ _ h8

/-- Every failure of `parse` is of one of the four kinds of the specification, or is
`std::bad_variant_access`, or is the out-of-range store of a line into the table. -/
theorem parse_error_kinds {strict_mode : Bool} {code : List token} {e : error}
    (h : parse strict_mode code = .error e) :
    e.parse_kind = true ∨ e = .bad_variant_access ∨ e = .undefined_behaviour := by
  have h1 := parse_fuel_error strict_mode _ _ _ _ _ h
  have h2 := parse_fuel_free strict_mode code
  rw [h] at h2
  cases e <;> first
    | exact Or.inl rfl
    | exact Or.inr (Or.inl rfl)
    | exact Or.inr (Or.inr rfl)
    | exact absurd rfl h2
    | (rcases h1 with h1 | h1 <;> cases h1)


/-! ## Evaluator: further cases -/

/-- Value resolution of a variable whose entry in the table has kind EMPTY. -/
theorem get_val_variable_empty {m : machine} {i idx : Nat}
    (h : m.vars[i]? = some { type := .EMPTY, index := idx }) :
    get_val (variable_expr i) m =
      .error (.invalid_operation_exception "accessed uninitialised memory") := by
  simp [get_val, variable_expr, vector_at_of_getElem? h, bind, Except.bind]

/-- The equals command `VARIABLE n EQUALS v` for a variable beyond the end of the
table: the variable is bound to a new cell at the end of the memory, holding `v`. -/
theorem execute_equals_fresh (m : machine) (n : Nat) (h : n ≥ m.vars.length)
    (hn : n + 1 < size_t_mod) (hL : m.memory.length + 1 < size_t_mod) (v : Bool) :
    execute_equals ⟨variable_expr n, bit_literal v⟩ m =
      .ok { m with vars := (resize m.vars (n + 1) {}).set n ⟨.BIT, m.memory.length⟩,
                   memory := m.memory ++ [v] } := by
  have := execute_equals_bit v (e := variable_expr n)
    (by simp [variable_expr, expression.type]) (get_address_variable_fresh h hn) hL
  rw [this]
  simp [resize_append_set]

/-- Write isolation for variables first written in increasing order: for `a < b` with
`b` below `2 ^ 64 - 1`, from a machine with empty memory and empty table, after `VARIABLE a EQUALS x` and then
`VARIABLE b EQUALS y` the variables are bound to the cells 0 and 1 and `VARIABLE a`
evaluates to `x`. -/
theorem write_isolation_increasing (a b : Nat) (hab : a < b) (hb : b + 1 < size_t_mod)
    (x y jr : Bool) (cin : List Char) (cout : List String) :
    ∃ m1 m2 : machine,
      execute_equals ⟨variable_expr a, bit_literal x⟩
          { memory := [], vars := [], jump_register := jr, cin := cin, cout := cout } =
        .ok m1 ∧
      execute_equals ⟨variable_expr b, bit_literal y⟩ m1 = .ok m2 ∧
      m2.memory = [x, y] ∧
      get_val (variable_expr a) m2 = .ok (.bool x, m2) ∧
      get_val (variable_expr b) m2 = .ok (.bool y, m2) := by
  have h1 := execute_equals_fresh
    { memory := [], vars := [], jump_register := jr, cin := cin, cout := cout } a
    (Nat.zero_le _) (by omega) (by simp [size_t_mod]) x
  simp only [List.length_nil, List.nil_append] at h1
  have hlen : ((resize [] (a + 1) {}).set a (⟨.BIT, 0⟩ : variable_t)).length = a + 1 := by
    rw [List.length_set, length_resize]
  have h2 := execute_equals_fresh
    { memory := [x], vars := (resize [] (a + 1) {}).set a ⟨.BIT, 0⟩, jump_register := jr,
      cin := cin, cout := cout } b (by simp only [hlen]; omega) hb (by simp [size_t_mod]) y
  simp only [List.length_singleton, List.singleton_append] at h2
  refine ⟨_, _, h1, h2, rfl, ?_, ?_⟩
  · have hv : ((resize ((resize [] (a + 1) {}).set a (⟨.BIT, 0⟩ : variable_t)) (b + 1) {}).set b
        (⟨.BIT, 1⟩ : variable_t))[a]? = some ⟨.BIT, 0⟩ := by
      rw [List.getElem?_set_ne (by omega), getElem?_resize, if_pos (by omega),
        List.getD_eq_getElem?_getD, List.getElem?_set_eq_of_lt _ (by rw [length_resize]; omega)]
      rfl
    exact get_val_variable_bit hv rfl
  · have hv : ((resize ((resize [] (a + 1) {}).set a (⟨.BIT, 0⟩ : variable_t)) (b + 1) {}).set b
        (⟨.BIT, 1⟩ : variable_t))[b]? = some ⟨.BIT, 1⟩ := by
      rw [List.getElem?_set_eq_of_lt _ (by rw [length_resize]; omega)]
    exact get_val_variable_bit hv rfl

end Itty
